import Mathlib

/-!
# Merkle Patricia trie of `merkle/get.go` and `merkle/put.go`

A shallow embedding of the traversal (`Get`, `findValue`) and of the write path
(`Put`, `upsert`, `persistNodes`, `getPathLength`).

Conventions of the embedding.

* A Go byte slice is a `List Nat` (each element read modulo 256 where its
  numeric value matters); a `nil` slice is `none`, a non-nil slice is `some`.
* A hex string is a `List Char`, one character per nibble.
* A Go `(result, error)` pair is kept as a pair; a run-time panic (index or
  slice bound out of range) is the separate outcome `Run.panic`.
* Go `int` positions that may go below zero are `Int`.
-/

namespace Merkle

abbrev Bytes := List Nat

/-- Errors returned by the package (`errors.New` values and store failures). -/
inductive GoErr where
  | invalidUserData
  | failedToFindChild
  | invalidPos
  | unexpectedNodeType
  | expectedNonEmptyRoot
  | expectedOneChild
  | store (code : Nat)
  deriving DecidableEq, Repr

/-- Outcome of a Go call: it returns, or it panics. -/
inductive Run (α : Type) where
  | done (a : α)
  | panic
  deriving DecidableEq, Repr

mutual
/-- Modelled from the spec: the node container (`NodeContainer`, not in the
sources at hand). Three variants: a branch maps a nibble to a child and has an
optional value, an extension has a path and one child reference, a leaf has a
path and a value. A child reference is content-addressed, and is represented
here by the referenced node itself; an extension whose reference is the empty
byte slice has child `none`. Two slots that refer to nodes of equal content
hold two equal values here, and following a reference does not consult the
node store. -/
inductive Node where
  | branch (children : Children) (value : Option Bytes)
  | ext (path : List Char) (child : Option Node)
  | leaf (path : List Char) (value : Option Bytes)
/-- Child slots of a branch: nibble, child. -/
inductive Children where
  | nil
  | cons (idx : Char) (n : Node) (rest : Children)
end

mutual
/-- Decidable equality of nodes. -/
def Node.decEq : (a b : Node) → Decidable (a = b)
  | .branch c1 v1, .branch c2 v2 =>
      match Children.decEq c1 c2 with
      | isTrue hc =>
        if hv : v1 = v2 then isTrue (by rw [hc, hv])
        else isFalse (fun h => hv (by injection h))
      | isFalse hc => isFalse (fun h => hc (by injection h))
  | .ext p1 none, .ext p2 none =>
      if hp : p1 = p2 then isTrue (by rw [hp]) else isFalse (fun h => hp (by injection h))
  | .ext p1 (some n1), .ext p2 (some n2) =>
      match Node.decEq n1 n2 with
      | isTrue hn =>
        if hp : p1 = p2 then isTrue (by rw [hp, hn])
        else isFalse (fun h => hp (by injection h))
      | isFalse hn => isFalse (fun h => hn (by injection h with _ h2; injection h2))
  | .ext _ none, .ext _ (some _) => isFalse (fun h => by injection h with _ h2; cases h2)
  | .ext _ (some _), .ext _ none => isFalse (fun h => by injection h with _ h2; cases h2)
  | .leaf p1 v1, .leaf p2 v2 =>
      if hp : p1 = p2 then
        if hv : v1 = v2 then isTrue (by rw [hp, hv])
        else isFalse (fun h => hv (by injection h))
      else isFalse (fun h => hp (by injection h))
  | .branch _ _, .ext _ _ => isFalse nofun
  | .branch _ _, .leaf _ _ => isFalse nofun
  | .ext _ _, .branch _ _ => isFalse nofun
  | .ext _ _, .leaf _ _ => isFalse nofun
  | .leaf _ _, .branch _ _ => isFalse nofun
  | .leaf _ _, .ext _ _ => isFalse nofun
/-- Decidable equality of child slots. -/
def Children.decEq : (a b : Children) → Decidable (a = b)
  | .nil, .nil => isTrue rfl
  | .cons i1 n1 r1, .cons i2 n2 r2 =>
      match Node.decEq n1 n2, Children.decEq r1 r2 with
      | isTrue hn, isTrue hr =>
        if hi : i1 = i2 then isTrue (by rw [hi, hn, hr])
        else isFalse (fun h => hi (by injection h))
      | isFalse hn, _ => isFalse (fun h => hn (by injection h))
      | _, isFalse hr => isFalse (fun h => hr (by injection h))
  | .nil, .cons _ _ _ => isFalse nofun
  | .cons _ _ _, .nil => isFalse nofun
end

instance : DecidableEq Node := Node.decEq

instance : DecidableEq Children := Children.decEq

/-- Modelled from the spec: the traversal stack (`stack`, not in the sources
at hand), an ordered sequence of node handles. The head of the list is the top
of the stack (the deepest node reached). `toSlice` lists the nodes from the top
down: `Put` takes `nodes[stack.len()-1]` as the new root, which is then the
first node pushed, and `persistNodes` walks the slice from index 0 with the
node handled before as the child and the key position counted from the end. -/
abbrev Stack := List Node

def Node.isBranch : Node → Bool
  | .branch _ _ => true
  | _ => false

def Node.isExt : Node → Bool
  | .ext _ _ => true
  | _ => false

def Node.isLeaf : Node → Bool
  | .leaf _ _ => true
  | _ => false

/-- Modelled from the spec: path of a short node (`getShortNode().getPath()`);
a branch has none. -/
def Node.getPath : Node → List Char
  | .branch _ _ => []
  | .ext p _ => p
  | .leaf p _ => p

/-- Modelled from the spec: the child stored in a branch slot (`getPointer`
followed by `getChild`). -/
def Children.getPointer : Children → Char → Option Node
  | .nil, _ => none
  | .cons i n rest, c => if i = c then some n else rest.getPointer c

/-- Modelled from the spec: `addBranchChild` puts `child` in slot `idx`,
replacing what was there. -/
def Children.addBranchChild : Children → Char → Node → Children
  | .nil, idx, child => .cons idx child .nil
  | .cons i n rest, idx, child =>
      if i = idx then .cons i child rest else .cons i n (rest.addBranchChild idx child)

def Children.toList : Children → List (Char × Node)
  | .nil => []
  | .cons i n rest => (i, n) :: rest.toList

/-- Modelled from the spec: the external collaborators of the trie, that is the
hash functions and the failures of the two stores. `loadErr n` is the error of
`n.loadChildren(mt.treeData)`, `persistErr n` the error of `persistNode(n)`,
`userGetErr u` a failure of
`userData.Get(u)` other than not-found, `userPutErr v` the error of
`persistUserValue(v)`; `none` means the call succeeds. -/
structure Env where
  sha256 : Bytes → Bytes
  nodeHash : Node → Bytes
  loadErr : Node → Option GoErr
  persistErr : Node → Option GoErr
  userGetErr : Bytes → Option GoErr
  userPutErr : Bytes → Option GoErr

/-- The tree handle `merkleTreeImp`: the root reference, the node store
(`treeData`, the nodes persisted so far) and the value store (`userData`). -/
structure MerkleTree where
  root : Option Node
  treeData : List Node
  userData : List (Bytes × Bytes)
  deriving DecidableEq

def hexDigit (n : Nat) : Char :=
  ['0', '1', '2', '3', '4', '5', '6', '7', '8', '9', 'a', 'b', 'c', 'd', 'e', 'f'].getD n '0'

/-- The function `hex.EncodeToString`: two nibbles per byte, high nibble first. -/
def hexEncode (k : Bytes) : List Char :=
  k.flatMap fun b => [hexDigit (b / 16 % 16), hexDigit (b % 16)]

/-- Result triple of `findValue`: value, error, and the stack it pushed on. -/
structure Found where
  value : Option Bytes
  err : Option GoErr
  stack : Stack

mutual
/-- The function `findValue` on a non-nil root. -/
def findValueNode (E : Env) : Node → List Char → Nat → Stack → Run Found
  | .branch cs v, k, pos, s =>
      match E.loadErr (.branch cs v) with
      | some e => .done ⟨none, some e, s⟩
      | none =>
        if (pos : Int) = (k.length : Int) - 1 then
          .done ⟨v, none, .branch cs v :: s⟩
        else
          match k.get? pos with
          | none => .panic
          | some c => findValueChild E cs c k pos (.branch cs v :: s)
  | .ext path child, k, pos, s =>
      match E.loadErr (.ext path child) with
      | some e => .done ⟨none, some e, s⟩
      | none =>
        if (k.length : Int) - pos < path.length ∨ path ≠ (k.drop pos).take path.length then
          .done ⟨none, none, .ext path child :: s⟩
        else
          match child with
          | none => .done ⟨none, none, .ext path child :: s⟩
          | some n => findValueNode E n k (pos + path.length) (.ext path child :: s)
  | .leaf p v, k, pos, s =>
      match E.loadErr (.leaf p v) with
      | some e => .done ⟨none, some e, s⟩
      | none =>
        if (k.length : Int) - pos < p.length ∨ p ≠ (k.drop pos).take p.length then
          .done ⟨none, none, .leaf p v :: s⟩
        else
          .done ⟨v, none, .leaf p v :: s⟩
/-- The branch step of `findValue`: `getPointer(k[pos])`, and when the slot is
occupied the recursive call on the child at `pos+1`. A reference is its node
here, so `getChild` does not return nil and the error `failed to find child`
is not produced, also for a child whose store entry was removed. -/
def findValueChild (E : Env) : Children → Char → List Char → Nat → Stack → Run Found
  | .nil, _, _, _, s => .done ⟨none, none, s⟩
  | .cons i n rest, c, k, pos, s =>
      if i = c then findValueNode E n k (pos + 1) s
      else findValueChild E rest c k pos s
end

/-- The function `findValue`: a nil root gives no value and no error. -/
def findValue (E : Env) (root : Option Node) (k : List Char) (pos : Nat) (s : Stack) :
    Run Found :=
  match root with
  | none => .done ⟨none, none, s⟩
  | some r => findValueNode E r k pos s

/-- Outcome of `userData.Get`. -/
inductive UserGet where
  | found (value : Bytes)
  | notFound
  | failed (e : GoErr)

/-- Modelled from the spec: the value store's `get(hash) -> value bytes |
not-found`, with the store's own failures given by `Env.userGetErr`. -/
def userDataGet (E : Env) (userData : List (Bytes × Bytes)) (u : Bytes) : UserGet :=
  match E.userGetErr u with
  | some e => .failed e
  | none =>
    match userData.lookup u with
    | some value => .found value
    | none => .notFound

/-- The method `Get`: traversal, then resolution through the value store. -/
def Get (E : Env) (mt : MerkleTree) (k : Bytes) : Run Found :=
  match findValue E mt.root (hexEncode k) 0 [] with
  | .panic => .panic
  | .done r =>
    match r.err with
    | some e => .done ⟨none, some e, r.stack⟩
    | none =>
      match r.value with
      | none => .done ⟨none, none, r.stack⟩
      | some userValue =>
        match userDataGet E mt.userData userValue with
        | .notFound => .done ⟨some userValue, none, r.stack⟩
        | .failed e => .done ⟨none, some e, r.stack⟩
        | .found value => .done ⟨some value, none, r.stack⟩

/-- Modelled from the spec: `commonPrefix` (not in the sources at hand), the
longest shared leading nibble sequence of two nibble sequences. -/
def commonPrefix : List Char → List Char → List Char
  | a :: as, b :: bs => if a = b then a :: commonPrefix as bs else []
  | _, _ => []

/-- Modelled from the spec: `persistNode` stores the node in the node store
under its content address; the store may fail (`Env.persistErr`). -/
def persistNode (E : Env) (mt : MerkleTree) (n : Node) : Option GoErr × MerkleTree :=
  match E.persistErr n with
  | some e => (some e, mt)
  | none => (none, { mt with treeData := n :: mt.treeData })

/-- Modelled from the spec: `removeNodeFromStore` drops the node's entry. -/
def removeNodeFromStore (mt : MerkleTree) (n : Node) : MerkleTree :=
  { mt with treeData := mt.treeData.filter fun m => decide (m ≠ n) }

/-- Modelled from the spec: `persistUserValue` puts a long value in the value
store under its content hash; the store may fail (`Env.userPutErr`). -/
def persistUserValue (E : Env) (mt : MerkleTree) (v : Bytes) : Option GoErr × MerkleTree :=
  match E.userPutErr v with
  | some e => (some e, mt)
  | none => (none, { mt with userData := (E.sha256 v, v) :: mt.userData })

/-- Modelled from the spec: the value of a short node
(`getShortNode().getValue()`), a leaf's value or an extension's child reference
(the hash of the child, or the empty slice). -/
def Node.getValue (E : Env) : Node → Option Bytes
  | .branch _ v => v
  | .ext _ none => some []
  | .ext _ (some c) => some (E.nodeHash c)
  | .leaf _ v => v

/-- Modelled from the spec: the setter `getShortNode().setPath`. -/
def Node.setPath : Node → List Char → Node
  | .branch cs v, _ => .branch cs v
  | .ext _ c, p => .ext p c
  | .leaf _ v, p => .leaf p v

/-- The function `getPathLength`: one per branch, the path length per
extension, nothing for a leaf. -/
def getPathLength : Stack → Nat
  | [] => 0
  | n :: rest =>
      (if n.isBranch then 1 else if n.isExt then n.getPath.length else 0) + getPathLength rest

/-- Result of `persistNodes`: the error, the nodes of the stack as the loop
left them, and the tree handle after the stores were written. -/
structure Persisted where
  err : Option GoErr
  stack : Stack
  mt : MerkleTree

/-- The loop of `persistNodes` over `items[i..]`, with the loop variables
`lastRoot` and `pos`. -/
def persistNodesLoop (E : Env) (k : List Char) :
    List Node → Option Node → Int → MerkleTree → Run Persisted
  | [], _, _, mt => .done ⟨none, [], mt⟩
  | .branch cs v :: items, lastRoot, pos, mt =>
      match lastRoot with
      | some lr =>
        if pos < 0 ∨ pos = k.length then
          .done ⟨some .invalidPos, .branch cs v :: items, mt⟩
        else
          match k.get? pos.toNat with
          | none => .panic
          | some idx =>
            let n := Node.branch (cs.addBranchChild idx lr) v
            match persistNodesLoop E k items (some n) (pos - 1) (persistNode E mt n).2 with
            | .panic => .panic
            | .done r => .done ⟨r.err, n :: r.stack, r.mt⟩
      | none =>
        match persistNodesLoop E k items (some (.branch cs v)) pos
            (persistNode E mt (.branch cs v)).2 with
        | .panic => .panic
        | .done r => .done ⟨r.err, .branch cs v :: r.stack, r.mt⟩
  | .ext path child :: items, lastRoot, pos, mt =>
      let n := match lastRoot with
        | some lr => Node.ext path (some lr)
        | none => Node.ext path child
      match persistNodesLoop E k items (some n) (pos - path.length) (persistNode E mt n).2 with
      | .panic => .panic
      | .done r => .done ⟨r.err, n :: r.stack, r.mt⟩
  | .leaf path v :: items, _, pos, mt =>
      match persistNodesLoop E k items (some (.leaf path v)) (pos - path.length)
          (persistNode E mt (.leaf path v)).2 with
      | .panic => .panic
      | .done r => .done ⟨r.err, .leaf path v :: r.stack, r.mt⟩

/-- The method `persistNodes`: walks the stack from its top, links every node
to the node handled before it, and persists it. -/
def persistNodes (E : Env) (mt : MerkleTree) (k : List Char) (s : Stack) : Run Persisted :=
  if s.length = 0 then .done ⟨none, s, mt⟩
  else persistNodesLoop E k s none ((k.length : Int) - 1) mt

/-- Result of `upsert`: the error, the stack, the tree handle, `lastNode`, the
node popped from the stack in the state the call left it in, and `dropped`,
the result of the `persistNodes` call, which `upsert` does not read. -/
structure Upserted where
  err : Option GoErr
  stack : Stack
  mt : MerkleTree
  lastNode : Option Node
  dropped : Option GoErr

/-- End of every path of `upsert` that calls `persistNodes`: the result of
`persistNodes` is dropped and `nil` is returned. -/
def upsertPersist (E : Env) (mt : MerkleTree) (k : List Char) (s : Stack)
    (lastNode : Option Node) : Run Upserted :=
  match persistNodes E mt k s with
  | .panic => .panic
  | .done r => .done ⟨none, r.stack, r.mt, lastNode, r.err⟩

/-- The divergence part of `upsert` (`lastNode is ext or leaf`): an extension
for the common prefix, a new branch, the old node shrunk under the branch or
its value moved into the branch, and a new leaf for what is left of the key.
The popped node is shrunk as a value; the result carries it as `lastNode` for
the caller, which holds the same node under the root. -/
def upsertSplit (E : Env) (mt : MerkleTree) (pos : Nat) (k : List Char) (v : Bytes)
    (lastNode : Node) (s : Stack) : Run Upserted :=
  if pos > k.length then .panic
  else
    let lastNodePath := lastNode.getPath
    let cpl := (commonPrefix lastNodePath (k.drop pos)).length
    let s1 : Stack := if cpl > 0 then Node.ext (lastNodePath.take cpl) none :: s else s
    let lastNodePath1 :=
      if cpl > 0 then (if cpl < lastNodePath.length then lastNodePath.drop cpl else [])
      else lastNodePath
    let pos1 := if cpl > 0 then pos + cpl else pos
    let newLeaf : Stack := if pos1 < k.length then [Node.leaf (k.drop (pos1 + 1)) (some v)] else []
    match lastNodePath1 with
    | branchChildKey :: lastNodePath2 =>
      if lastNodePath2.length > 0 ∨ lastNode.isLeaf then
        let mt1 := removeNodeFromStore mt lastNode
        let shrunk := lastNode.setPath lastNodePath2
        let newBranch := Node.branch (Children.nil.addBranchChild branchChildKey shrunk) none
        match persistNode E mt1 shrunk with
        | (some e, mt2) => .done ⟨some e, newBranch :: s1, mt2, some shrunk, none⟩
        | (none, mt2) => upsertPersist E mt2 k (newLeaf ++ newBranch :: s1) (some shrunk)
      else
        let mt1 := removeNodeFromStore mt lastNode
        let newBranch := Node.branch .nil (lastNode.getValue E)
        upsertPersist E mt1 k (newLeaf ++ newBranch :: s1) (some lastNode)
    | [] =>
      let newBranch := Node.branch .nil (lastNode.getValue E)
      upsertPersist E mt k (newLeaf ++ newBranch :: s1) (some lastNode)

/-- The method `upsert`. -/
def upsert (E : Env) (mt : MerkleTree) (pos : Nat) (k : List Char) (v : Bytes) (s : Stack) :
    Run Upserted :=
  match s with
  | [] =>
    let newLeaf := Node.leaf k (some v)
    .done ⟨none, [newLeaf], (persistNode E mt newLeaf).2, none, none⟩
  | .leaf leafPath lv :: s1 =>
    let l := getPathLength s1
    if l > k.length then .panic
    else if (commonPrefix leafPath (k.drop l)).length = leafPath.length ∧ pos = k.length then
      let mt1 := removeNodeFromStore mt (.leaf leafPath lv)
      upsertPersist E mt1 k (.leaf leafPath (some v) :: s1) (some (.leaf leafPath (some v)))
    else upsertSplit E mt pos k v (.leaf leafPath lv) s1
  | .branch cs bv :: s1 =>
    if pos < k.length then
      upsertPersist E mt k (.leaf (k.drop (pos + 1)) (some v) :: .branch cs bv :: s1)
        (some (.branch cs bv))
    else
      let mt1 := removeNodeFromStore mt (.branch cs (some v))
      upsertPersist E mt1 k (.branch cs (some v) :: s1) (some (.branch cs (some v)))
  | .ext path child :: s1 => upsertSplit E mt pos k v (.ext path child) s1

/-- Lines 21 to 33 of `Put`: the value handed to the trie, with the write of a
long value to the value store. -/
def putUserValue (E : Env) (mt : MerkleTree) (v : Bytes) : Option GoErr × Bytes × MerkleTree :=
  if v.length > 32 then
    match persistUserValue E mt v with
    | (some e, mt1) => (some e, [], mt1)
    | (none, mt1) => (none, E.sha256 v, mt1)
  else (none, v, mt)

/-- Modelled from the spec: a node handle is shared, so a node changed in place
is seen changed by the parent that holds it. `replaceChild old new` gives the
parent with every child of content `old` shown as `new`. -/
def Children.replaceChild : Children → Node → Node → Children
  | .nil, _, _ => .nil
  | .cons i n rest, old, new =>
      .cons i (if n = old then new else n) (rest.replaceChild old new)

/-- The same for any parent node; a leaf has no child. -/
def Node.replaceChild : Node → Node → Node → Node
  | .branch cs v, old, new => .branch (cs.replaceChild old new) v
  | .ext p (some c), old, new => .ext p (some (if c = old then new else c))
  | .ext p none, _, _ => .ext p none
  | .leaf p v, _, _ => .leaf p v

/-- The bottom node of a traversal stack after the node on its top, `old`, was
changed in place into `new`: every node below is seen with its child changed. -/
def relink : List Node → Node → Node → Node
  | [], _, new => new
  | parent :: rest, old, new => relink rest parent (parent.replaceChild old new)

/-- The node the root reference points to after `upsert` returned an error:
the reference is not assigned, and the node it refers to is the bottom of the
traversal stack, whose top `upsert` popped and left as `lastNode`. -/
def rootAfterError (root : Option Node) (stack : Stack) (lastNode : Option Node) :
    Option Node :=
  match stack, lastNode with
  | old :: parents, some new => some (relink parents old new)
  | _, _ => root

/-- Lines 52 to 59 of `Put`: an error of `upsert` is returned and the root
reference is not assigned; otherwise the last node of the stack slice becomes
the root. -/
def putFinish (mt : MerkleTree) (g : Found) (r : Run Upserted) :
    Run (Option GoErr × MerkleTree) :=
  match r with
  | .panic => .panic
  | .done u =>
    match u.err with
    | some e => .done (some e, { u.mt with root := rootAfterError mt.root g.stack u.lastNode })
    | none =>
      match u.stack.getLast? with
      | none => .panic
      | some r => .done (none, { u.mt with root := some r })

/-- Lines 35 to 59 of `Put`: traversal, the test for a value already stored,
`upsert` with the position computed from the stack, and the new root. The
error of `Get` is assigned and not read. -/
def putTree (E : Env) (mt : MerkleTree) (k v userValue : Bytes) :
    Run (Option GoErr × MerkleTree) :=
  match Get E mt k with
  | .panic => .panic
  | .done g =>
    if g.value ≠ none ∧ g.value = some v then .done (none, mt)
    else
      let hexKey := hexEncode k
      let pos := getPathLength g.stack
      putFinish mt g (upsert E mt pos hexKey userValue g.stack)

/-- The method `Put`. -/
def Put (E : Env) (mt : MerkleTree) (k v : Bytes) : Run (Option GoErr × MerkleTree) :=
  if v.length = 0 ∨ k.length = 0 then .done (some .invalidUserData, mt)
  else
    match putUserValue E mt v with
    | (some e, _, mt1) => .done (some e, mt1)
    | (none, userValue, mt1) => putTree E mt1 k v userValue

/-- A `Put` that returned `nil`: the tree handle after it. -/
def putOk (E : Env) (mt : MerkleTree) (k v : Bytes) : Option MerkleTree :=
  match Put E mt k v with
  | .done (none, mt1) => some mt1
  | _ => none

/-- A sequence of `Put` calls, each of which returned `nil`. -/
def putAll (E : Env) (mt : MerkleTree) : List (Bytes × Bytes) → Option MerkleTree
  | [] => some mt
  | (k, v) :: rest =>
    match putOk E mt k v with
    | some mt1 => putAll E mt1 rest
    | none => none

/-- What the caller of `Get` sees: the value and the error. -/
def getResult (E : Env) (mt : MerkleTree) (k : Bytes) : Run (Option Bytes × Option GoErr) :=
  match Get E mt k with
  | .panic => .panic
  | .done g => .done (g.value, g.err)

/-- The empty trie: no root, empty stores. -/
def emptyTree : MerkleTree := ⟨none, [], []⟩

/-- An environment in which no store call fails. The two hash functions are
stand-ins with 32-byte results. -/
def quietEnv : Env where
  sha256 := fun v => List.replicate 32 (v.length % 256)
  nodeHash := fun _ => List.replicate 32 0
  loadErr := fun _ => none
  persistErr := fun _ => none
  userGetErr := fun _ => none
  userPutErr := fun _ => none

/-- As `quietEnv`, but the node store refuses to persist node `bad`. -/
def persistFailEnv (bad : Node) : Env :=
  { quietEnv with persistErr := fun n => if n = bad then some (.store 1) else none }

/-- As `quietEnv`, but loading the children of node `bad` fails. -/
def loadFailEnv (bad : Node) : Env :=
  { quietEnv with loadErr := fun n => if n = bad then some (.store 1) else none }

/-- What the caller of `Put` sees, with the root the handle refers to afterwards. -/
def putOutcome (E : Env) (mt : MerkleTree) (k v : Bytes) : Run (Option GoErr × Option Node) :=
  match Put E mt k v with
  | .panic => .panic
  | .done (e, mt1) => .done (e, mt1.root)

/-- Four nested branches, each the child in slot `1` of the one above. -/
def nestedBranches : Stack :=
  let b3 := Node.branch .nil none
  let b2 := Node.branch (.cons '1' b3 .nil) none
  let b1 := Node.branch (.cons '1' b2 .nil) none
  let b0 := Node.branch (.cons '1' b1 .nil) none
  [b3, b2, b1, b0]

/-! ### The structural validator -/

/-- The type tag of a node (`pb.NodeType`). -/
inductive NodeType where
  | branch
  | extension
  | leaf
  deriving DecidableEq, Repr

mutual
/-- Modelled from the spec: the node container as `ValidateStructure` reads it
(`NodeContainer`, not in the sources at hand): its type tag, the outcome of
`loadChildren` on it, and the children `getAllChildren` returns once loaded.
The children are a plain collection, so an extension may be given any number
of them. -/
inductive Container where
  | mk (nodeType : NodeType) (loadErr : Option GoErr) (children : ContainerList)
/-- The loaded children of a container. -/
inductive ContainerList where
  | nil
  | cons (c : Container) (rest : ContainerList)
end

def Container.nodeType : Container → NodeType
  | .mk t _ _ => t

def Container.loadErr : Container → Option GoErr
  | .mk _ e _ => e

def ContainerList.toList : ContainerList → List Container
  | .nil => []
  | .cons c rest => c :: rest.toList

/-- The children `getAllChildren` returns. -/
def Container.getAllChildren : Container → List Container
  | .mk _ _ cs => cs.toList

mutual
/-- The method `ValidateStructure` on a non-nil root. -/
def validateNode : Container → Option GoErr
  | .mk t le cs =>
    match le with
    | some e => some e
    | none =>
      match t with
      | .branch => validateChildren cs
      | .extension =>
        match cs with
        | .cons c .nil => validateNode c
        | _ => some .expectedOneChild
      | .leaf => none
/-- The loop of the branch case: the first error among the children. -/
def validateChildren : ContainerList → Option GoErr
  | .nil => none
  | .cons c rest =>
    match validateNode c with
    | some e => some e
    | none => validateChildren rest
end

/-- The method `ValidateStructure`; `none` is the `nil` error. -/
def ValidateStructure (root : Option Container) : Option GoErr :=
  match root with
  | none => some .expectedNonEmptyRoot
  | some r => validateNode r

/-- The nodes reachable from a node through the children of branch and
extension nodes (the node itself included). -/
inductive Reach : Container → Container → Prop where
  | here (c : Container) : Reach c c
  | down (c child n : Container) (hty : c.nodeType ≠ .leaf)
      (hmem : child ∈ c.getAllChildren) (hr : Reach child n) : Reach c n

/-- What the validator asks of one node: its load succeeds, and when it is an
extension it has exactly one child. -/
def Container.sound (n : Container) : Prop :=
  n.loadErr = none ∧ (n.nodeType = .extension → n.getAllChildren.length = 1)

mutual
/-- The trie node as the validator reads it, with the load outcome of `E`. -/
def Node.container (E : Env) : Node → Container
  | .branch cs v => .mk .branch (E.loadErr (.branch cs v)) (Children.containers E cs)
  | .ext p none => .mk .extension (E.loadErr (.ext p none)) .nil
  | .ext p (some c) => .mk .extension (E.loadErr (.ext p (some c))) (.cons (Node.container E c) .nil)
  | .leaf p v => .mk .leaf (E.loadErr (.leaf p v)) .nil
/-- The children of a branch as the validator reads them. -/
def Children.containers (E : Env) : Children → ContainerList
  | .nil => .nil
  | .cons _ n rest => .cons (Node.container E n) (Children.containers E rest)
end

/-! ### Node invariants -/

/-- The node invariants of the data model: an extension has a non-empty path
and holds a child reference; a branch has at least one child or a value, and
its value, when present, is non-empty; a leaf holds a non-empty value. -/
def Node.inv : Node → Prop
  | .branch cs v => (cs ≠ .nil ∨ v ≠ none) ∧ v ≠ some []
  | .ext p c => p ≠ [] ∧ c ≠ none
  | .leaf _ v => v ≠ none ∧ v ≠ some []

instance : DecidablePred Node.inv := fun n => by
  cases n <;> unfold Node.inv <;> infer_instance

/-! ### Key positions used up by a stack -/

/-- The number of key positions `persistNodes` steps back over a node that has
a node handled before it: the path length of a leaf or an extension, one for
a branch. -/
def Node.consumed : Node → Nat
  | .branch _ _ => 1
  | .ext p _ => p.length
  | .leaf p _ => p.length

/-- The positions stepped back over a whole list of nodes. -/
def consumedBy : List Node → Nat
  | [] => 0
  | n :: rest => n.consumed + consumedBy rest

/-- What a traversal guarantees of its stack: the nodes under the top one are
branches and extensions that matched the key, so none is a leaf and together
they match no more nibbles than the key has. -/
def StackOk (k : List Char) : Stack → Prop
  | [] => True
  | _ :: parents => (∀ n ∈ parents, n.isLeaf = false) ∧ getPathLength parents ≤ k.length

end Merkle

namespace Merkle

/-! ## Frame lemmas: the write path never touches the value store -/

theorem persistNode_userData (E : Env) (mt : MerkleTree) (n : Node) :
    (persistNode E mt n).2.userData = mt.userData := by
  unfold persistNode
  cases E.persistErr n <;> rfl

theorem persistNodesLoop_userData (E : Env) (k : List Char) :
    ∀ (items : List Node) (lastRoot : Option Node) (pos : Int) (mt : MerkleTree) (r : Persisted),
      persistNodesLoop E k items lastRoot pos mt = .done r → r.mt.userData = mt.userData := by
  intro items
  induction items with
  | nil =>
    intro lastRoot pos mt r h
    simp only [persistNodesLoop, Run.done.injEq] at h
    subst h
    rfl
  | cons n items ih =>
    intro lastRoot pos mt r h
    cases n with
    | branch cs v =>
      cases lastRoot with
      | none =>
        simp only [persistNodesLoop] at h
        split at h
        · cases h
        · next r1 h1 =>
          simp only [Run.done.injEq] at h
          subst h
          exact (ih _ _ _ _ h1).trans (persistNode_userData E mt _)
      | some lr =>
        simp only [persistNodesLoop] at h
        split at h
        · simp only [Run.done.injEq] at h
          subst h
          rfl
        · split at h
          · cases h
          · split at h
            · cases h
            · next r1 h1 =>
              simp only [Run.done.injEq] at h
              subst h
              exact (ih _ _ _ _ h1).trans (persistNode_userData E mt _)
    | ext path child =>
      simp only [persistNodesLoop] at h
      split at h
      · cases h
      · next r1 h1 =>
        simp only [Run.done.injEq] at h
        subst h
        exact (ih _ _ _ _ h1).trans (persistNode_userData E mt _)
    | leaf path v =>
      simp only [persistNodesLoop] at h
      split at h
      · cases h
      · next r1 h1 =>
        simp only [Run.done.injEq] at h
        subst h
        exact (ih _ _ _ _ h1).trans (persistNode_userData E mt _)

theorem persistNodes_userData (E : Env) (mt : MerkleTree) (k : List Char) (s : Stack)
    (r : Persisted) (h : persistNodes E mt k s = .done r) : r.mt.userData = mt.userData := by
  unfold persistNodes at h
  split at h
  · simp only [Run.done.injEq] at h
    subst h
    rfl
  · exact persistNodesLoop_userData E k _ _ _ _ _ h

theorem upsertPersist_userData (E : Env) (mt : MerkleTree) (k : List Char) (s : Stack)
    (ln : Option Node) (u : Upserted) (h : upsertPersist E mt k s ln = .done u) :
    u.mt.userData = mt.userData := by
  unfold upsertPersist at h
  split at h
  · cases h
  · next r hr =>
    simp only [Run.done.injEq] at h
    subst h
    exact persistNodes_userData E mt k s r hr

theorem upsertSplit_userData (E : Env) (mt : MerkleTree) (pos : Nat) (k : List Char) (v : Bytes)
    (lastNode : Node) (s : Stack) (u : Upserted)
    (h : upsertSplit E mt pos k v lastNode s = .done u) : u.mt.userData = mt.userData := by
  unfold upsertSplit at h
  split at h
  · cases h
  · simp only at h
    split at h
    · next c p2 _ =>
      have h2 := persistNode_userData E (removeNodeFromStore mt lastNode) (lastNode.setPath p2)
      split at h
      · split at h
        · next e mt2 hp =>
          simp only [Run.done.injEq] at h
          subst h
          rw [hp] at h2
          exact h2
        · next mt2 hp =>
          rw [hp] at h2
          exact (upsertPersist_userData E _ _ _ _ _ h).trans h2
      · exact (upsertPersist_userData E _ _ _ _ _ h).trans rfl
    · exact upsertPersist_userData E _ _ _ _ _ h

theorem upsert_userData (E : Env) (mt : MerkleTree) (pos : Nat) (k : List Char) (v : Bytes)
    (s : Stack) (u : Upserted) (h : upsert E mt pos k v s = .done u) :
    u.mt.userData = mt.userData := by
  unfold upsert at h
  split at h
  · simp only [Run.done.injEq] at h
    subst h
    exact persistNode_userData E mt _
  · simp only at h
    split at h
    · cases h
    · split at h
      · exact (upsertPersist_userData E _ _ _ _ _ h).trans rfl
      · exact upsertSplit_userData E _ _ _ _ _ _ _ h
  · split at h
    · exact upsertPersist_userData E _ _ _ _ _ h
    · exact (upsertPersist_userData E _ _ _ _ _ h).trans rfl
  · exact upsertSplit_userData E _ _ _ _ _ _ _ h

theorem putTree_userData (E : Env) (mt : MerkleTree) (k v userValue : Bytes)
    (e : Option GoErr) (mt1 : MerkleTree) (h : putTree E mt k v userValue = .done (e, mt1)) :
    mt1.userData = mt.userData := by
  unfold putTree at h
  split at h
  · cases h
  · split at h
    · simp only [Run.done.injEq, Prod.mk.injEq] at h
      rw [← h.2]
    · simp only [putFinish] at h
      split at h
      · cases h
      · next u hu =>
        have hud := upsert_userData E _ _ _ _ _ _ hu
        split at h
        · simp only [Run.done.injEq, Prod.mk.injEq] at h
          rw [← h.2]
          exact hud
        · split at h
          · cases h
          · simp only [Run.done.injEq, Prod.mk.injEq] at h
            rw [← h.2]
            exact hud

theorem putTree_empty (E : Env) (mt : MerkleTree) (k v userValue : Bytes)
    (hroot : mt.root = none) :
    putTree E mt k v userValue
      = .done (none, { (persistNode E mt (.leaf (hexEncode k) (some userValue))).2 with
          root := some (.leaf (hexEncode k) (some userValue)) }) := by
  simp [putTree, putFinish, Get, findValue, hroot, upsert, getPathLength]

/-! ## Round trip, rejection, absence, update, idempotence -/

/-- C1 (round trip), evaluated on the code: on the trie holding key `0x10`,
`Put(0x11, [2])` returns no error, and the following `Get(0x11)` returns an
absent value: the traversal stops at the branch reached with one nibble left
and returns the branch's own (unset) value. -/
theorem put_then_get_absent :
    (putAll quietEnv emptyTree [([16], [1])]).map (fun mt => mt.root)
      = some (some (.leaf ['1', '0'] (some [1]))) ∧
    (putAll quietEnv emptyTree [([16], [1]), ([17], [2])]).map
      (fun mt => (mt.root, getResult quietEnv mt [17]))
      = some (some (.ext ['1'] (some (.branch
          (.cons '0' (.leaf [] (some [1])) (.cons '1' (.leaf [] (some [2])) .nil)) none))),
        .done (none, none)) := by
  decide

/-- C2 (rejection): an empty key or an empty value makes `Put` return
`InvalidUserDataError` and leaves the whole tree handle (root reference, node
store, value store) as it was. -/
theorem put_rejects_empty (E : Env) (mt : MerkleTree) (k v : Bytes) (h : k = [] ∨ v = []) :
    Put E mt k v = .done (some .invalidUserData, mt) := by
  unfold Put
  have hc : v.length = 0 ∨ k.length = 0 := by
    rcases h with h | h
    · exact Or.inr (by rw [h]; rfl)
    · exact Or.inl (by rw [h]; rfl)
  rw [if_pos hc]

theorem put_rejects_empty_witness :
    (([] : Bytes) = [] ∨ ([1, 2] : Bytes) = []) ∧
    Put quietEnv ⟨some (.leaf ['1', '0'] (some [1])), [.leaf ['1', '0'] (some [1])], []⟩ [] [1, 2]
      = .done (some .invalidUserData,
          ⟨some (.leaf ['1', '0'] (some [1])), [.leaf ['1', '0'] (some [1])], []⟩) :=
  ⟨Or.inl rfl, put_rejects_empty quietEnv _ [] [1, 2] (Or.inl rfl)⟩

/-- C3 (absence), evaluated on the code: after `Put(0x10,[1])`, `Put(0x11,[2])`,
`Put(0x11,[2])`, a `Get` of the key `0x12`, which was never put, returns the
value `[2]`. -/
theorem get_of_missing_key_finds_value :
    (putAll quietEnv emptyTree [([16], [1]), ([17], [2]), ([17], [2])]).map
      (fun mt => getResult quietEnv mt [18]) = some (.done (some [2], none)) := by
  decide

/-- C4 (update in place), evaluated on the code: `Put(0x10,[1])` then
`Put(0x10,[2])` on the empty trie leaves an extension over a branch that holds
the old value `[1]`; the value `[2]` is nowhere in the trie, and `Get(0x10)`
then indexes the key out of range. -/
theorem put_twice_loses_new_value :
    (putAll quietEnv emptyTree [([16], [1]), ([16], [2])]).map
      (fun mt => (mt.root, getResult quietEnv mt [16]))
      = some (some (.ext ['1', '0'] (some (.branch .nil (some [1])))), .panic) := by
  decide

/-- C5 (idempotence), evaluated on the code: on the trie holding key `0x10`,
one `Put(0x11,[2])` and two `Put(0x11,[2])` in a row end with different roots:
the second call does not find the value and writes it into the branch. -/
theorem put_twice_changes_root :
    (putAll quietEnv emptyTree [([16], [1]), ([17], [2])]).map (fun mt => mt.root)
      = some (some (.ext ['1'] (some (.branch
          (.cons '0' (.leaf [] (some [1])) (.cons '1' (.leaf [] (some [2])) .nil)) none)))) ∧
    (putAll quietEnv emptyTree [([16], [1]), ([17], [2]), ([17], [2])]).map (fun mt => mt.root)
      = some (some (.ext ['1'] (some (.branch
          (.cons '0' (.leaf [] (some [1])) (.cons '1' (.leaf [] (some [2])) .nil))
          (some [2]))))) := by
  decide

/-! ## Value policy and value resolution -/

/-- C6 (size boundary): for a non-empty key and value, `Put` is the traversal
followed, unless the value is found already stored, by the call of `upsert`
whose value argument is `v` itself when `len(v) ≤ 32`, with the value store the
same after the call, and is `Sha256(v)` when `len(v) > 32`, after `v` was put
in the value store under `Sha256(v)`; when that store write fails `Put` returns
its error and `upsert` is not called. On a trie without root the leaf that
becomes the root holds `v` in the first case and `Sha256(v)` in the second. -/
theorem put_value_size_policy (E : Env) (mt : MerkleTree) (k v : Bytes)
    (hk : k ≠ []) (hv : v ≠ []) :
    (v.length ≤ 32 →
      Put E mt k v =
        (match Get E mt k with
          | .panic => .panic
          | .done g =>
            if g.value ≠ none ∧ g.value = some v then .done (none, mt)
            else putFinish mt g
              (upsert E mt (getPathLength g.stack) (hexEncode k) v g.stack)) ∧
      (∀ e mt1, Put E mt k v = .done (e, mt1) → mt1.userData = mt.userData) ∧
      (mt.root = none → ∃ mt1, Put E mt k v = .done (none, mt1) ∧
        mt1.root = some (.leaf (hexEncode k) (some v)))) ∧
    (32 < v.length →
      (∀ e, E.userPutErr v = some e → Put E mt k v = .done (some e, mt)) ∧
      (E.userPutErr v = none →
        Put E mt k v =
          (match Get E { mt with userData := (E.sha256 v, v) :: mt.userData } k with
            | .panic => .panic
            | .done g =>
              if g.value ≠ none ∧ g.value = some v then
                .done (none, { mt with userData := (E.sha256 v, v) :: mt.userData })
              else putFinish { mt with userData := (E.sha256 v, v) :: mt.userData } g
                (upsert E { mt with userData := (E.sha256 v, v) :: mt.userData }
                  (getPathLength g.stack) (hexEncode k) (E.sha256 v) g.stack)) ∧
        (∀ e mt1, Put E mt k v = .done (e, mt1) →
          mt1.userData = (E.sha256 v, v) :: mt.userData) ∧
        (mt.root = none → ∃ mt1, Put E mt k v = .done (none, mt1) ∧
          mt1.root = some (.leaf (hexEncode k) (some (E.sha256 v)))))) := by
  have hc : ¬ (v.length = 0 ∨ k.length = 0) := by
    intro h
    rcases h with h | h
    · exact hv (List.length_eq_zero.mp h)
    · exact hk (List.length_eq_zero.mp h)
  constructor
  · intro hle
    have hnot : ¬ v.length > 32 := Nat.not_lt.mpr hle
    have heq : Put E mt k v = putTree E mt k v v := by
      unfold Put putUserValue
      rw [if_neg hc, if_neg hnot]
    refine ⟨?_, ?_, ?_⟩
    · rw [heq]
      rfl
    · intro e mt1 h
      rw [heq] at h
      exact putTree_userData E mt k v v e mt1 h
    · intro hroot
      rw [heq, putTree_empty E mt k v v hroot]
      exact ⟨_, rfl, rfl⟩
  · intro hgt
    constructor
    · intro e hput
      unfold Put putUserValue persistUserValue
      rw [if_neg hc, if_pos hgt, hput]
    · intro hput
      have heq : Put E mt k v
          = putTree E { mt with userData := (E.sha256 v, v) :: mt.userData } k v
              (E.sha256 v) := by
        unfold Put putUserValue persistUserValue
        rw [if_neg hc, if_pos hgt, hput]
      refine ⟨?_, ?_, ?_⟩
      · rw [heq]
        rfl
      · intro e mt1 h
        rw [heq] at h
        exact putTree_userData E _ k v _ e mt1 h
      · intro hroot
        rw [heq, putTree_empty E ⟨mt.root, mt.treeData, (E.sha256 v, v) :: mt.userData⟩ k v _
          hroot]
        exact ⟨_, rfl, rfl⟩

theorem put_value_size_policy_witness :
    (([16] : Bytes) ≠ [] ∧ (List.replicate 33 7 : Bytes) ≠ [] ∧
      32 < (List.replicate 33 7 : Bytes).length ∧
      quietEnv.userPutErr (List.replicate 33 7) = none ∧ emptyTree.root = none) ∧
    (∀ e mt1, Put quietEnv emptyTree [16] (List.replicate 33 7) = .done (e, mt1) →
      mt1.userData
        = (quietEnv.sha256 (List.replicate 33 7), List.replicate 33 7)
            :: emptyTree.userData) ∧
    (∃ mt1, Put quietEnv emptyTree [16] (List.replicate 33 7) = .done (none, mt1) ∧
      mt1.root = some (.leaf (hexEncode [16])
        (some (quietEnv.sha256 (List.replicate 33 7))))) :=
  ⟨⟨by decide, by decide, by decide, rfl, rfl⟩,
    (((put_value_size_policy quietEnv emptyTree [16] (List.replicate 33 7)
      (by decide) (by decide)).2 (by decide)).2 rfl).2.1,
    (((put_value_size_policy quietEnv emptyTree [16] (List.replicate 33 7)
      (by decide) (by decide)).2 (by decide)).2 rfl).2.2 rfl⟩

/-- C7 (value resolution in `Get`): when the traversal returns without error
and finds the trie value `u`, `Get` returns the bytes the value store holds
under `u`, returns `u` itself with no error when the value store reports
not-found, and returns the error and no value for another failure of the value
store; when the traversal finds nothing, `Get` returns absent with no error
whatever the value store holds. -/
theorem get_value_resolution (E : Env) (mt : MerkleTree) (k : Bytes) (r : Found)
    (h : findValue E mt.root (hexEncode k) 0 [] = .done r) (he : r.err = none) :
    (∀ u, r.value = some u →
      (∀ b, userDataGet E mt.userData u = .found b →
        Get E mt k = .done ⟨some b, none, r.stack⟩) ∧
      (userDataGet E mt.userData u = .notFound →
        Get E mt k = .done ⟨some u, none, r.stack⟩) ∧
      (∀ e, userDataGet E mt.userData u = .failed e →
        Get E mt k = .done ⟨none, some e, r.stack⟩)) ∧
    (r.value = none →
      ∀ ud, Get E { mt with userData := ud } k = .done ⟨none, none, r.stack⟩) := by
  constructor
  · intro u hu
    refine ⟨?_, ?_, ?_⟩
    · intro b hb
      unfold Get
      simp only [h, he, hu, hb]
    · intro hb
      unfold Get
      simp only [h, he, hu, hb]
    · intro e hb
      unfold Get
      simp only [h, he, hu, hb]
  · intro hn ud
    unfold Get
    simp only [h, he, hn]

theorem get_value_resolution_witness :
    (findValue quietEnv (some (.leaf ['1', '0'] (some [1]))) (hexEncode [16]) 0 []
        = .done ⟨some [1], none, [.leaf ['1', '0'] (some [1])]⟩ ∧
      userDataGet quietEnv [([1], [9, 9])] [1] = .found [9, 9]) ∧
    Get quietEnv ⟨some (.leaf ['1', '0'] (some [1])), [], [([1], [9, 9])]⟩ [16]
      = .done ⟨some [9, 9], none, [.leaf ['1', '0'] (some [1])]⟩ :=
  ⟨⟨rfl, rfl⟩,
    ((get_value_resolution quietEnv ⟨some (.leaf ['1', '0'] (some [1])), [], [([1], [9, 9])]⟩
      [16] ⟨some [1], none, [.leaf ['1', '0'] (some [1])]⟩ rfl rfl).1 [1] rfl).1 [9, 9] rfl⟩

/-! ## Failures on the write path -/

/-- C8 (root kept on a failed write), evaluated on the code: the trie holds the
single leaf for key `0x10` (path `10`, value `[1]`) and the node store refuses
the leaf with the empty path. `Put(0x11,[2])` returns the store error, and the
root, the same node as before, now has the path `1` cut down to nothing: its
path was shortened in place before the failed `persistNode`. -/
theorem failed_put_shrinks_root :
    (putAll (persistFailEnv (.leaf [] (some [1]))) emptyTree [([16], [1])]).map
      (fun mt => (mt.root, putOutcome (persistFailEnv (.leaf [] (some [1]))) mt [17] [2]))
      = some (some (.leaf ['1', '0'] (some [1])),
          .done (some (.store 1), some (.leaf [] (some [1])))) := by
  decide

/-- C9 (traversal failure in `Put`), evaluated on the code: the trie holds the
single leaf for key `0x10` and loading that root fails. `Get(0x11)` returns the
store error, yet `Put(0x11,[2])` returns no error: it runs `upsert` on the
empty stack and replaces the root by a new leaf for `0x11`. -/
theorem put_ignores_get_error :
    (putAll (loadFailEnv (.leaf ['1', '0'] (some [1]))) emptyTree [([16], [1])]).map
      (fun mt => (mt.root, getResult (loadFailEnv (.leaf ['1', '0'] (some [1]))) mt [17]))
      = some (some (.leaf ['1', '0'] (some [1])), .done (none, some (.store 1))) ∧
    (putAll (loadFailEnv (.leaf ['1', '0'] (some [1]))) emptyTree [([16], [1])]).map
      (fun mt => putOutcome (loadFailEnv (.leaf ['1', '0'] (some [1]))) mt [17] [2])
      = some (.done (none, some (.leaf ['1', '1'] (some [2])))) := by
  decide

/-- The method `upsert` does not read the result of `persistNodes`: on a stack
of four nested branches and the two-nibble key `11`, a stack no traversal of
that key produces, `persistNodes` reports `invalid pos value` and `upsert`
returns `nil`. -/
theorem upsert_drops_persistNodes_error :
    (match persistNodes quietEnv emptyTree ['1', '1']
        (.branch .nil (some [2]) :: nestedBranches.tail) with
      | .done r => some r.err
      | .panic => none) = some (some .invalidPos) ∧
    (match upsert quietEnv emptyTree 4 ['1', '1'] [2] nestedBranches with
      | .done u => some (u.err, u.dropped, u.stack.length)
      | .panic => none) = some (none, some .invalidPos, 4) := by
  decide

/-! ## The structural validator -/

theorem validateNode_sound (c : Container) :
    validateNode c = none → ∀ n, Reach c n → n.sound := by
  refine Container.rec
    (motive_1 := fun c => validateNode c = none → ∀ n, Reach c n → n.sound)
    (motive_2 := fun cs => validateChildren cs = none →
      ∀ child, child ∈ cs.toList → ∀ n, Reach child n → n.sound) ?_ ?_ ?_ c
  · intro t le cs ih h n hr
    cases le with
    | some e => simp [validateNode] at h
    | none =>
      cases hr with
      | here =>
        refine ⟨rfl, ?_⟩
        intro ht
        simp only [Container.nodeType] at ht
        subst ht
        cases cs with
        | nil => simp [validateNode] at h
        | cons c1 rest =>
          cases rest with
          | nil => simp [Container.getAllChildren, ContainerList.toList]
          | cons c2 rest2 => simp [validateNode] at h
      | down _ child _ hty hmem hr2 =>
        cases t with
        | branch =>
          simp only [validateNode] at h
          exact ih h child hmem n hr2
        | extension =>
          cases cs with
          | nil => simp [validateNode] at h
          | cons c1 rest =>
            cases rest with
            | nil =>
              simp only [validateNode] at h
              have hcs : validateChildren (.cons c1 .nil) = none := by
                simp [validateChildren, h]
              exact ih hcs child hmem n hr2
            | cons c2 rest2 => simp [validateNode] at h
        | leaf => exact absurd rfl hty
  · intro _ child hmem
    simp [ContainerList.toList] at hmem
  · intro c1 rest ihc ihr h child hmem n hr
    simp only [validateChildren] at h
    split at h
    · cases h
    · next hc =>
      simp only [ContainerList.toList, List.mem_cons] at hmem
      rcases hmem with hmem | hmem
      · subst hmem
        exact ihc hc n hr
      · exact ihr h child hmem n hr

theorem validateNode_complete (c : Container) :
    (∀ n, Reach c n → n.sound) → validateNode c = none := by
  refine Container.rec
    (motive_1 := fun c => (∀ n, Reach c n → n.sound) → validateNode c = none)
    (motive_2 := fun cs => (∀ child, child ∈ cs.toList → ∀ n, Reach child n → n.sound) →
      validateChildren cs = none) ?_ ?_ ?_ c
  · intro t le cs ih h
    have hself := h _ (Reach.here _)
    have hle : le = none := hself.1
    subst hle
    cases t with
    | branch =>
      simp only [validateNode]
      apply ih
      intro child hmem n hr
      exact h n (Reach.down _ child n (by simp [Container.nodeType]) hmem hr)
    | extension =>
      have hlen := hself.2 rfl
      cases cs with
      | nil => simp [Container.getAllChildren, ContainerList.toList] at hlen
      | cons c1 rest =>
        cases rest with
        | nil =>
          simp only [validateNode]
          have hcs : validateChildren (.cons c1 .nil) = none := by
            apply ih
            intro child hmem n hr
            exact h n (Reach.down _ child n (by simp [Container.nodeType]) hmem hr)
          simp only [validateChildren] at hcs
          split at hcs
          · cases hcs
          · next hc => exact hc
        | cons c2 rest2 =>
          simp [Container.getAllChildren, ContainerList.toList] at hlen
    | leaf => simp [validateNode]
  · intro _
    rfl
  · intro c1 rest ihc ihr h
    have h1 : validateNode c1 = none := by
      apply ihc
      intro n hr
      exact h c1 (by simp [ContainerList.toList]) n hr
    have h2 : validateChildren rest = none := by
      apply ihr
      intro child hmem n hr
      exact h child (by simp [ContainerList.toList, hmem]) n hr
    simp [validateChildren, h1, h2]

/-- C11 (validator characterisation): `ValidateStructure(root)` returns no
error exactly when the root is not none, every node reachable from it through
the children of branches and extensions loads, and every such extension has
exactly one child. A none root, an extension with no child and an extension
with two children are rejected; a leaf that loads is accepted whatever else it
holds. -/
theorem validateStructure_characterisation (root : Option Container) :
    (ValidateStructure root = none ↔
      ∃ r, root = some r ∧ (∀ n, Reach r n → n.loadErr = none) ∧
        (∀ n, Reach r n → n.nodeType = .extension → n.getAllChildren.length = 1)) ∧
    ValidateStructure none = some .expectedNonEmptyRoot ∧
    (∀ le, ValidateStructure (some (.mk .extension le .nil)) ≠ none) ∧
    (∀ le c1 c2,
      ValidateStructure (some (.mk .extension le (.cons c1 (.cons c2 .nil)))) ≠ none) ∧
    (∀ cs, ValidateStructure (some (.mk .leaf none cs)) = none) := by
  refine ⟨?_, rfl, ?_, ?_, ?_⟩
  · cases root with
    | none =>
      constructor
      · intro h
        cases h
      · rintro ⟨r, hr, _⟩
        cases hr
    | some r =>
      constructor
      · intro h
        refine ⟨r, rfl, ?_, ?_⟩
        · intro n hn
          exact (validateNode_sound r h n hn).1
        · intro n hn
          exact (validateNode_sound r h n hn).2
      · rintro ⟨r1, hr, h1, h2⟩
        cases hr
        exact validateNode_complete r (fun n hn => ⟨h1 n hn, h2 n hn⟩)
  · intro le
    cases le <;> simp [ValidateStructure, validateNode]
  · intro le c1 c2
    cases le <;> simp [ValidateStructure, validateNode]
  · intro cs
    simp [ValidateStructure, validateNode]

/-! ## Inserts -/

theorem hexEncode_length (k : Bytes) : (hexEncode k).length = 2 * k.length := by
  induction k with
  | nil => rfl
  | cons b rest ih =>
    have h : hexEncode (b :: rest)
        = hexDigit (b / 16 % 16) :: hexDigit (b % 16) :: hexEncode rest := by
      simp [hexEncode]
    rw [h]
    simp only [List.length_cons, ih]
    omega

/-- C13 (empty-tree insert): on a trie without root, for a non-empty key and
value, a `Put` that returns no error leaves as root a single leaf whose path is
the hex expansion of the key, of length twice the key length, and whose value
is `v` itself when `len(v) ≤ 32` and `Sha256(v)` otherwise; and `Put` does
return no error when the value is short or the value store accepts it. -/
theorem put_on_empty_tree (E : Env) (mt : MerkleTree) (k v : Bytes)
    (hroot : mt.root = none) (hk : k ≠ []) (hv : v ≠ []) :
    (hexEncode k).length = 2 * k.length ∧
    (∀ mt1, Put E mt k v = .done (none, mt1) →
      mt1.root = some (.leaf (hexEncode k)
        (some (if v.length ≤ 32 then v else E.sha256 v)))) ∧
    ((v.length ≤ 32 ∨ E.userPutErr v = none) → ∃ mt1, Put E mt k v = .done (none, mt1)) := by
  have hc : ¬ (v.length = 0 ∨ k.length = 0) := by
    intro h
    rcases h with h | h
    · exact hv (List.length_eq_zero.mp h)
    · exact hk (List.length_eq_zero.mp h)
  refine ⟨hexEncode_length k, ?_, ?_⟩
  · intro mt1 h
    unfold Put putUserValue persistUserValue at h
    rw [if_neg hc] at h
    by_cases hlen : v.length > 32
    · rw [if_pos hlen] at h
      cases hput : E.userPutErr v with
      | some e =>
        rw [hput] at h
        simp at h
      | none =>
        rw [hput] at h
        simp only at h
        rw [putTree_empty E ⟨mt.root, mt.treeData, (E.sha256 v, v) :: mt.userData⟩ k v _
          hroot] at h
        simp only [Run.done.injEq, Prod.mk.injEq, true_and] at h
        rw [← h, if_neg (by omega)]
    · rw [if_neg hlen] at h
      simp only at h
      rw [putTree_empty E _ k v _ hroot] at h
      simp only [Run.done.injEq, Prod.mk.injEq, true_and] at h
      rw [← h, if_pos (by omega)]
  · intro h
    unfold Put putUserValue persistUserValue
    rw [if_neg hc]
    by_cases hlen : v.length > 32
    · rw [if_pos hlen]
      have hput : E.userPutErr v = none := by
        rcases h with h | h
        · omega
        · exact h
      rw [hput]
      simp only
      rw [putTree_empty E ⟨mt.root, mt.treeData, (E.sha256 v, v) :: mt.userData⟩ k v _ hroot]
      exact ⟨_, rfl⟩
    · rw [if_neg hlen]
      simp only
      rw [putTree_empty E _ k v _ hroot]
      exact ⟨_, rfl⟩

theorem put_on_empty_tree_witness :
    (emptyTree.root = none ∧ ([16, 32] : Bytes) ≠ [] ∧ ([7] : Bytes) ≠ []) ∧
    (hexEncode [16, 32]).length = 2 * ([16, 32] : Bytes).length ∧
    (∀ mt1, Put quietEnv emptyTree [16, 32] [7] = .done (none, mt1) →
      mt1.root = some (.leaf (hexEncode [16, 32])
        (some (if ([7] : Bytes).length ≤ 32 then [7] else quietEnv.sha256 [7])))) ∧
    ((([7] : Bytes).length ≤ 32 ∨ quietEnv.userPutErr [7] = none) →
      ∃ mt1, Put quietEnv emptyTree [16, 32] [7] = .done (none, mt1)) :=
  ⟨⟨rfl, by decide, by decide⟩,
    put_on_empty_tree quietEnv emptyTree [16, 32] [7] rfl (by decide) (by decide)⟩

/-! ## Divergence split -/

theorem commonPrefix_diverge (c r1 r2 : List Char) (a b : Char) (hab : a ≠ b) :
    commonPrefix (c ++ a :: r1) (c ++ b :: r2) = c := by
  induction c with
  | nil => simp [commonPrefix, hab]
  | cons x c ih => simp [commonPrefix, ih]

theorem take_diverge_ne (c r1 r2 : List Char) (a b : Char) (hab : a ≠ b) :
    c ++ a :: r1 ≠ (c ++ b :: r2).take (c ++ a :: r1).length := by
  intro h
  have h2 : (c ++ b :: r2).take (c ++ a :: r1).length
      = c ++ b :: r2.take r1.length := by
    rw [List.take_append_eq_append_take]
    simp
  rw [h2] at h
  have h3 := List.append_cancel_left h
  injection h3 with h4 _
  exact hab h4

theorem get?_append_cons (c r : List Char) (b : Char) :
    (c ++ b :: r).get? c.length = some b := by
  induction c with
  | nil => rfl
  | cons x c ih => simpa using ih

theorem persistNodesLoop_split (E : Env) (mt : MerkleTree) (c r2 : List Char) (b : Char)
    (cs : Children) (lv bv : Option Bytes) (s1 : Stack)
    (hs1 : s1 = [] ∨ s1 = [.ext c none]) :
    ∃ mt1, persistNodes E mt (c ++ b :: r2) (.leaf r2 lv :: .branch cs bv :: s1)
      = .done ⟨none,
          .leaf r2 lv :: .branch (cs.addBranchChild b (.leaf r2 lv)) bv ::
            (if s1 = [] then []
             else [.ext c (some (.branch (cs.addBranchChild b (.leaf r2 lv)) bv))]),
          mt1⟩ := by
  have hpos : (((c ++ b :: r2).length : Int) - 1 - (r2.length : Int)) = (c.length : Int) := by
    simp only [List.length_append, List.length_cons]
    push_cast
    omega
  have hnot : ¬ ((c.length : Int) < 0 ∨ (c.length : Int) = ((c ++ b :: r2).length : Int)) := by
    simp only [List.length_append, List.length_cons]
    push_cast
    omega
  have hget : (c ++ b :: r2).get? (c.length : Int).toNat = some b := by
    rw [Int.toNat_ofNat]
    exact get?_append_cons c r2 b
  rcases hs1 with hs1 | hs1
  · subst hs1
    simp only [persistNodes, persistNodesLoop, hpos, hnot, hget]
    simp
  · subst hs1
    simp only [persistNodes, persistNodesLoop, hpos, hnot, hget]
    simp

theorem upsert_split_leaf (E : Env) (mt : MerkleTree) (c r1 r2 : List Char) (a b : Char)
    (v1 v2 : Bytes) (hab : a ≠ b) (hpersist : E.persistErr (.leaf r1 (some v1)) = none) :
    ∃ mt1, upsert E mt 0 (c ++ b :: r2) v2 [.leaf (c ++ a :: r1) (some v1)]
      = .done ⟨none,
          .leaf r2 (some v2) ::
            .branch (.cons a (.leaf r1 (some v1)) (.cons b (.leaf r2 (some v2)) .nil)) none ::
            (if c = [] then []
             else [.ext c (some (.branch
               (.cons a (.leaf r1 (some v1)) (.cons b (.leaf r2 (some v2)) .nil)) none))]),
          mt1, some (.leaf r1 (some v1)), none⟩ := by
  have hcp := commonPrefix_diverge c r1 r2 a b hab
  have hlen : ¬ (0 = (c ++ b :: r2).length) := by
    simp only [List.length_append, List.length_cons]
    omega
  have htake : (c ++ a :: r1).take c.length = c := List.take_left' rfl
  have hdrop : (c ++ a :: r1).drop c.length = a :: r1 := List.drop_left' rfl
  have hdrop2 : (c ++ b :: r2).drop (c.length + 1) = r2 := by
    have h : c ++ b :: r2 = (c ++ [b]) ++ r2 := by simp
    rw [h]
    exact List.drop_left' (by simp)
  cases c with
  | nil =>
    obtain ⟨mt1, h1⟩ := persistNodesLoop_split E
      (persistNode E (removeNodeFromStore mt (.leaf (a :: r1) (some v1))) (.leaf r1 (some v1))).2
      [] r2 b (.cons a (.leaf r1 (some v1)) .nil) (some v2) none [] (Or.inl rfl)
    refine ⟨mt1, ?_⟩
    simp only [List.nil_append] at hcp h1 ⊢
    simp [upsert, upsertSplit, getPathLength, hcp, persistNode, hpersist, upsertPersist,
      Node.getPath, Node.isLeaf, Node.setPath, Children.addBranchChild] at h1 ⊢
    rw [h1]
    simp [hab]
  | cons x c =>
    obtain ⟨mt1, h1⟩ := persistNodesLoop_split E
      (persistNode E (removeNodeFromStore mt (.leaf (x :: c ++ a :: r1) (some v1)))
        (.leaf r1 (some v1))).2
      (x :: c) r2 b (.cons a (.leaf r1 (some v1)) .nil) (some v2) none [.ext (x :: c) none]
      (Or.inr rfl)
    refine ⟨mt1, ?_⟩
    have hcpl : (commonPrefix (x :: (c ++ a :: r1)) (x :: (c ++ b :: r2))).length
        = c.length + 1 := by
      have := congrArg List.length hcp
      simpa using this
    simp only [List.cons_append, List.length_cons] at htake hdrop hdrop2 hlen h1
    simp [upsert, upsertSplit, getPathLength, hcpl, htake, hdrop, hdrop2, persistNode,
      hpersist, upsertPersist, Node.getPath, Node.isLeaf, Node.setPath,
      Children.addBranchChild] at h1 ⊢
    rw [h1]
    simp [hab]

theorem get_diverging_leaf (E : Env) (td : List Node) (ud : List (Bytes × Bytes))
    (k2 : Bytes) (c r1 r2 : List Char) (a b : Char) (v1 : Bytes) (hab : a ≠ b)
    (h2 : hexEncode k2 = c ++ b :: r2)
    (hload : E.loadErr (.leaf (c ++ a :: r1) (some v1)) = none) :
    Get E ⟨some (.leaf (c ++ a :: r1) (some v1)), td, ud⟩ k2
      = .done ⟨none, none, [.leaf (c ++ a :: r1) (some v1)]⟩ := by
  have hne := take_diverge_ne c r1 r2 a b hab
  simp only [Get, findValue, findValueNode, hload, h2, List.drop_zero]
  rw [if_pos (Or.inr hne)]

theorem Put_short (E : Env) (mt : MerkleTree) (k v : Bytes)
    (hk : k ≠ []) (hv : v ≠ []) (hl : v.length ≤ 32) :
    Put E mt k v = putTree E mt k v v := by
  have hc : ¬ (v.length = 0 ∨ k.length = 0) := by
    intro h
    rcases h with h | h
    · exact hv (List.length_eq_zero.mp h)
    · exact hk (List.length_eq_zero.mp h)
  have hnot : ¬ v.length > 32 := Nat.not_lt.mpr hl
  unfold Put putUserValue
  rw [if_neg hc, if_neg hnot]

/-- C12 (divergence split): on a trie without root, let the nibble paths of the
two keys be `c ++ a :: r1` and `c ++ b :: r2` with `a ≠ b`, that is they agree
on their first `p = length c` nibbles and differ at index `p`. With values of
at most 32 bytes and a store that loads the first leaf and persists the shrunk
one, `Put(k1, v1)` then `Put(k2, v2)` both return no error, and the root is the
branch itself when `p = 0` and otherwise an extension with path `c` over the
branch; the branch has no value, a leaf with path `r1` and value `v1` in slot
`a`, and a leaf with path `r2` and value `v2` in slot `b`. -/
theorem divergence_split (E : Env) (mt : MerkleTree) (k1 k2 v1 v2 : Bytes)
    (c r1 r2 : List Char) (a b : Char)
    (hroot : mt.root = none) (hk1 : k1 ≠ []) (hk2 : k2 ≠ [])
    (hv1 : v1 ≠ []) (hv2 : v2 ≠ []) (hl1 : v1.length ≤ 32) (hl2 : v2.length ≤ 32)
    (h1 : hexEncode k1 = c ++ a :: r1) (h2 : hexEncode k2 = c ++ b :: r2) (hab : a ≠ b)
    (hload : E.loadErr (.leaf (c ++ a :: r1) (some v1)) = none)
    (hpersist : E.persistErr (.leaf r1 (some v1)) = none) :
    ∃ mt1 mt2, Put E mt k1 v1 = .done (none, mt1) ∧ Put E mt1 k2 v2 = .done (none, mt2) ∧
      mt2.root = some
        (if c = [] then
          .branch (.cons a (.leaf r1 (some v1)) (.cons b (.leaf r2 (some v2)) .nil)) none
        else
          .ext c (some (.branch
            (.cons a (.leaf r1 (some v1)) (.cons b (.leaf r2 (some v2)) .nil)) none))) := by
  have hp1 : Put E mt k1 v1 = .done (none,
      ⟨some (.leaf (c ++ a :: r1) (some v1)),
        (persistNode E mt (.leaf (c ++ a :: r1) (some v1))).2.treeData,
        (persistNode E mt (.leaf (c ++ a :: r1) (some v1))).2.userData⟩) := by
    rw [Put_short E mt k1 v1 hk1 hv1 hl1, putTree_empty E mt k1 v1 v1 hroot, h1]
  obtain ⟨mtu, hu⟩ := upsert_split_leaf E
    ⟨some (.leaf (c ++ a :: r1) (some v1)),
      (persistNode E mt (.leaf (c ++ a :: r1) (some v1))).2.treeData,
      (persistNode E mt (.leaf (c ++ a :: r1) (some v1))).2.userData⟩
    c r1 r2 a b v1 v2 hab hpersist
  refine ⟨_, { mtu with root := some _ }, hp1, ?_, rfl⟩
  rw [Put_short E _ k2 v2 hk2 hv2 hl2]
  unfold putTree
  rw [get_diverging_leaf E _ _ k2 c r1 r2 a b v1 hab h2 hload]
  have hpl : getPathLength [Node.leaf (c ++ a :: r1) (some v1)] = 0 := rfl
  simp only [h2, hpl, hu]
  by_cases hc : c = []
  · simp [hc, putFinish]
  · simp [hc, putFinish]

theorem divergence_split_witness :
    (emptyTree.root = none ∧ hexEncode [18, 52] = ['1', '2', '3'] ++ '4' :: [] ∧
      hexEncode [18, 53] = ['1', '2', '3'] ++ '5' :: [] ∧ '4' ≠ '5') ∧
    ∃ mt1 mt2, Put quietEnv emptyTree [18, 52] [1] = .done (none, mt1) ∧
      Put quietEnv mt1 [18, 53] [2] = .done (none, mt2) ∧
      mt2.root = some
        (if ['1', '2', '3'] = [] then
          .branch (.cons '4' (.leaf [] (some [1])) (.cons '5' (.leaf [] (some [2])) .nil)) none
        else
          .ext ['1', '2', '3'] (some (.branch
            (.cons '4' (.leaf [] (some [1])) (.cons '5' (.leaf [] (some [2])) .nil)) none))) :=
  ⟨⟨rfl, by decide, by decide, by decide⟩,
    divergence_split quietEnv emptyTree [18, 52] [18, 53] [1] [2] ['1', '2', '3'] [] [] '4' '5'
      rfl (by decide) (by decide) (by decide) (by decide) (by decide) (by decide)
      (by decide) (by decide) (by decide) rfl rfl⟩

/-! ## Node invariants under `upsert` -/

theorem persistNodesLoop_inv (E : Env) (k : List Char) :
    ∀ (items : List Node) (lastRoot : Option Node) (pos : Int) (mt : MerkleTree) (r : Persisted),
      persistNodesLoop E k items lastRoot pos mt = .done r →
      (∀ n ∈ items, n.inv) → ∀ n ∈ r.stack, n.inv := by
  intro items
  induction items with
  | nil =>
    intro lastRoot pos mt r h _ n hn
    simp only [persistNodesLoop, Run.done.injEq] at h
    subst h
    simp at hn
  | cons m items ih =>
    intro lastRoot pos mt r h hinv n hn
    have hm : m.inv := hinv m (List.mem_cons_self _ _)
    have hrest : ∀ n ∈ items, n.inv := fun n hn => hinv n (List.mem_cons_of_mem _ hn)
    cases m with
    | branch cs v =>
      cases lastRoot with
      | none =>
        simp only [persistNodesLoop] at h
        split at h
        · cases h
        · next r1 h1 =>
          simp only [Run.done.injEq] at h
          subst h
          simp only [List.mem_cons] at hn
          rcases hn with hn | hn
          · subst hn
            exact hm
          · exact ih _ _ _ _ h1 hrest n hn
      | some lr =>
        simp only [persistNodesLoop] at h
        split at h
        · simp only [Run.done.injEq] at h
          subst h
          exact hinv n hn
        · split at h
          · cases h
          · split at h
            · cases h
            · next idx _ r1 h1 =>
              simp only [Run.done.injEq] at h
              subst h
              simp only [List.mem_cons] at hn
              rcases hn with hn | hn
              · subst hn
                refine ⟨Or.inl ?_, hm.2⟩
                cases cs with
                | nil => simp [Children.addBranchChild]
                | cons i c rest =>
                  simp only [Children.addBranchChild]
                  split <;> simp
              · exact ih _ _ _ _ h1 hrest n hn
    | ext path child =>
      simp only [persistNodesLoop] at h
      split at h
      · cases h
      · next r1 h1 =>
        simp only [Run.done.injEq] at h
        subst h
        simp only [List.mem_cons] at hn
        rcases hn with hn | hn
        · subst hn
          cases lastRoot with
          | none => exact hm
          | some lr => exact ⟨hm.1, by simp⟩
        · exact ih _ _ _ _ h1 hrest n hn
    | leaf path v =>
      simp only [persistNodesLoop] at h
      split at h
      · cases h
      · next r1 h1 =>
        simp only [Run.done.injEq] at h
        subst h
        simp only [List.mem_cons] at hn
        rcases hn with hn | hn
        · subst hn
          exact hm
        · exact ih _ _ _ _ h1 hrest n hn

theorem persistNodesLoop_ext_inv (E : Env) (k : List Char) (p : List Char) (c0 : Option Node)
    (items : List Node) (lr : Node) (pos : Int) (mt : MerkleTree) (r : Persisted)
    (h : persistNodesLoop E k (.ext p c0 :: items) (some lr) pos mt = .done r)
    (hp : p ≠ []) (hinv : ∀ n ∈ items, n.inv) : ∀ n ∈ r.stack, n.inv := by
  simp only [persistNodesLoop] at h
  split at h
  · cases h
  · next r1 h1 =>
    simp only [Run.done.injEq] at h
    subst h
    intro n hn
    simp only [List.mem_cons] at hn
    rcases hn with hn | hn
    · subst hn
      exact ⟨hp, by simp⟩
    · exact persistNodesLoop_inv E k _ _ _ _ _ h1 hinv n hn

/-- The stack `upsert` hands to `persistNodes` in the divergence case: the new
leaf when the key is not used up, the new branch, the new extension when there
is a common prefix, and the nodes left on the stack. -/
theorem persistNodes_split_inv (E : Env) (mt : MerkleTree) (k : List Char) (q : Nat)
    (v : Bytes) (cs : Children) (bv : Option Bytes) (cpl : Nat) (px : List Char) (s : Stack)
    (r : Persisted)
    (h : persistNodes E mt k
      ((if q < k.length then [Node.leaf (k.drop (q + 1)) (some v)] else []) ++
        Node.branch cs bv :: (if cpl > 0 then Node.ext px none :: s else s)) = .done r)
    (hb : (Node.branch cs bv).inv) (hpx : cpl > 0 → px ≠ []) (hv : v ≠ [])
    (hinv : ∀ n ∈ s, n.inv) : ∀ n ∈ r.stack, n.inv := by
  by_cases hc : cpl > 0
  · have hpx1 := hpx hc
    simp only [if_pos hc] at h
    by_cases hq : q < k.length
    · simp only [if_pos hq, persistNodes, List.cons_append, List.nil_append, List.length_cons] at h
      rw [if_neg (by omega)] at h
      simp only [persistNodesLoop] at h
      have hpos : ((k.length : Int) - 1 - ((k.drop (q + 1)).length : Int)) = (q : Int) := by
        rw [List.length_drop]
        omega
      rw [hpos] at h
      have hnot : ¬ ((q : Int) < 0 ∨ (q : Int) = (k.length : Int)) := by omega
      rw [if_neg hnot] at h
      split at h
      · cases h
      · next r1 h1 =>
        simp only [Run.done.injEq] at h
        subst h
        split at h1
        · cases h1
        · next idx _ =>
          split at h1
          · cases h1
          · next r2 h2 =>
            simp only [Run.done.injEq] at h1
            subst h1
            intro n hn
            simp only [List.mem_cons] at hn
            rcases hn with hn | hn | hn
            · subst hn
              exact ⟨by simp, by simpa using hv⟩
            · subst hn
              refine ⟨Or.inl ?_, hb.2⟩
              cases cs with
              | nil => simp [Children.addBranchChild]
              | cons i c rest =>
                simp only [Children.addBranchChild]
                split <;> simp
            · exact persistNodesLoop_ext_inv E k px none s _ _ _ _ h2 hpx1 hinv n hn
    · simp only [if_neg hq, persistNodes, List.nil_append, List.length_cons] at h
      rw [if_neg (by omega)] at h
      simp only [persistNodesLoop] at h
      split at h
      · cases h
      · next r1 h1 =>
        simp only [Run.done.injEq] at h
        subst h
        intro n hn
        simp only [List.mem_cons] at hn
        rcases hn with hn | hn
        · subst hn
          exact hb
        · exact persistNodesLoop_ext_inv E k px none s _ _ _ _ h1 hpx1 hinv n hn
  · simp only [if_neg hc] at h
    have hall : ∀ n ∈ (if q < k.length then [Node.leaf (k.drop (q + 1)) (some v)] else []) ++
        Node.branch cs bv :: s, n.inv := by
      intro n hn
      simp only [List.mem_append, List.mem_cons] at hn
      rcases hn with hn | hn | hn
      · split at hn
        · simp only [List.mem_singleton] at hn
          subst hn
          exact ⟨by simp, by simpa using hv⟩
        · simp at hn
      · subst hn
        exact hb
      · exact hinv n hn
    generalize (if q < k.length then [Node.leaf (k.drop (q + 1)) (some v)] else []) ++
        Node.branch cs bv :: s = st at h hall
    unfold persistNodes at h
    split at h
    · simp only [Run.done.injEq] at h
      subst h
      exact hall
    · exact persistNodesLoop_inv E k _ _ _ _ _ h hall

theorem upsertPersist_inv (E : Env) (mt : MerkleTree) (k : List Char) (st : Stack)
    (ln : Option Node) (u : Upserted) (h : upsertPersist E mt k st ln = .done u)
    (hall : ∀ n ∈ st, n.inv) : (∀ n ∈ u.stack, n.inv) ∧ u.lastNode = ln := by
  unfold upsertPersist at h
  split at h
  · cases h
  · next r hr =>
    simp only [Run.done.injEq] at h
    subst h
    refine ⟨?_, rfl⟩
    unfold persistNodes at hr
    split at hr
    · simp only [Run.done.injEq] at hr
      subst hr
      exact hall
    · exact persistNodesLoop_inv E k _ _ _ _ _ hr hall

theorem upsertPersist_split_inv (E : Env) (mt : MerkleTree) (k : List Char) (q : Nat)
    (v : Bytes) (cs : Children) (bv : Option Bytes) (cpl : Nat) (px : List Char) (s : Stack)
    (ln : Option Node) (u : Upserted)
    (h : upsertPersist E mt k
      ((if q < k.length then [Node.leaf (k.drop (q + 1)) (some v)] else []) ++
        Node.branch cs bv :: (if cpl > 0 then Node.ext px none :: s else s)) ln = .done u)
    (hb : (Node.branch cs bv).inv) (hpx : cpl > 0 → px ≠ []) (hv : v ≠ [])
    (hinv : ∀ n ∈ s, n.inv) : (∀ n ∈ u.stack, n.inv) ∧ u.lastNode = ln := by
  unfold upsertPersist at h
  split at h
  · cases h
  · next r hr =>
    simp only [Run.done.injEq] at h
    subst h
    exact ⟨persistNodes_split_inv E mt k q v cs bv cpl px s r hr hb hpx hv hinv, rfl⟩

theorem commonPrefix_take_ne_nil (p l : List Char) (h : (commonPrefix p l).length > 0) :
    p.take (commonPrefix p l).length ≠ [] := by
  cases p with
  | nil => simp [commonPrefix] at h
  | cons x p =>
    cases hl : (commonPrefix (x :: p) l).length with
    | zero => omega
    | succ m => simp

theorem getValue_inv (E : Env) (hhash : ∀ n, E.nodeHash n ≠ []) (n : Node)
    (hn : n.inv) (hnb : n.isBranch = false) :
    n.getValue E ≠ none ∧ n.getValue E ≠ some [] := by
  cases n with
  | branch cs v => simp [Node.isBranch] at hnb
  | ext p c =>
    cases c with
    | none => exact absurd rfl hn.2
    | some c => exact ⟨by simp [Node.getValue], by simpa [Node.getValue] using hhash c⟩
  | leaf p v => exact hn

theorem upsertSplit_inv (E : Env) (hhash : ∀ n, E.nodeHash n ≠ []) (mt : MerkleTree)
    (pos : Nat) (k : List Char) (v : Bytes) (lastNode : Node) (s : Stack) (u : Upserted)
    (h : upsertSplit E mt pos k v lastNode s = .done u) (herr : u.err = none)
    (hv : v ≠ []) (hl : lastNode.inv) (hnb : lastNode.isBranch = false)
    (hinv : ∀ n ∈ s, n.inv) :
    (∀ n ∈ u.stack, n.inv) ∧
    (∀ n, u.lastNode = some n → n.isExt = true → n.getPath ≠ []) := by
  have hpx := commonPrefix_take_ne_nil lastNode.getPath (k.drop pos)
  have hval := getValue_inv E hhash lastNode hl hnb
  have hlast : ∀ n, some lastNode = some n → n.isExt = true → n.getPath ≠ [] := by
    intro n hn hext
    simp only [Option.some.injEq] at hn
    subst hn
    cases lastNode with
    | branch cs bv => simp [Node.isExt] at hext
    | ext p c => exact hl.1
    | leaf p lv => simp [Node.isExt] at hext
  unfold upsertSplit at h
  split at h
  · cases h
  · simp only at h
    split at h
    · next key p2 hp2 =>
      split at h
      · next hshrink =>
        split at h
        · next e mt2 hp =>
          simp only [Run.done.injEq] at h
          subst h
          simp at herr
        · next mt2 hp =>
          have hres := upsertPersist_split_inv E _ k _ v _ _ _ _ s _ u h
            ⟨Or.inl (by simp [Children.addBranchChild]), by simp⟩ hpx hv hinv
          refine ⟨hres.1, ?_⟩
          intro n hn hext
          rw [hres.2] at hn
          simp only [Option.some.injEq] at hn
          subst hn
          cases lastNode with
          | branch cs bv => simp [Node.isBranch] at hnb
          | ext p c =>
            simp only [Node.setPath, Node.getPath]
            rcases hshrink with hs | hs
            · intro hnil
              rw [hnil] at hs
              simp at hs
            · simp [Node.isLeaf] at hs
          | leaf p lv => simp [Node.setPath, Node.isExt] at hext
      · have hres := upsertPersist_split_inv E _ k _ v _ _ _ _ s _ u h
          ⟨Or.inr hval.1, hval.2⟩ hpx hv hinv
        refine ⟨hres.1, ?_⟩
        intro n hn
        rw [hres.2] at hn
        exact hlast n hn
    · have hres := upsertPersist_split_inv E _ k _ v _ _ _ _ s _ u h
        ⟨Or.inr hval.1, hval.2⟩ hpx hv hinv
      refine ⟨hres.1, ?_⟩
      intro n hn
      rw [hres.2] at hn
      exact hlast n hn

/-- C14 (node invariants are preserved by `upsert`): with a hash function that
never returns the empty slice, a non-empty value and a stack all of whose
nodes satisfy the node invariants, whenever `upsert` returns without error
every node of the resulting stack satisfies the node invariants (extensions
have a non-empty path and a child, branches a child or a value), and the node
popped from the stack, when it is an extension that was kept or shrunk, has a
non-empty path. -/
theorem upsert_preserves_invariants (E : Env) (hhash : ∀ n, E.nodeHash n ≠ [])
    (mt : MerkleTree) (pos : Nat) (k : List Char) (v : Bytes) (s : Stack) (u : Upserted)
    (h : upsert E mt pos k v s = .done u) (herr : u.err = none)
    (hv : v ≠ []) (hinv : ∀ n ∈ s, n.inv) :
    (∀ n ∈ u.stack, n.inv) ∧
    (∀ n, u.lastNode = some n → n.isExt = true → n.getPath ≠ []) := by
  unfold upsert at h
  split at h
  · simp only [Run.done.injEq] at h
    subst h
    refine ⟨?_, by simp⟩
    intro n hn
    simp only [List.mem_singleton] at hn
    subst hn
    exact ⟨by simp, by simpa using hv⟩
  · next leafPath lv s1 =>
    have hl : (Node.leaf leafPath lv).inv := hinv _ (List.mem_cons_self _ _)
    have hrest : ∀ n ∈ s1, n.inv := fun n hn => hinv n (List.mem_cons_of_mem _ hn)
    simp only at h
    split at h
    · cases h
    · split at h
      · have hres := upsertPersist_inv E _ k _ _ u h (by
          intro n hn
          simp only [List.mem_cons] at hn
          rcases hn with hn | hn
          · subst hn
            exact ⟨by simp, by simpa using hv⟩
          · exact hrest n hn)
        refine ⟨hres.1, ?_⟩
        intro n hn hext
        rw [hres.2] at hn
        simp only [Option.some.injEq] at hn
        subst hn
        simp [Node.isExt] at hext
      · exact upsertSplit_inv E hhash mt pos k v _ s1 u h herr hv hl rfl hrest
  · next cs bv s1 =>
    have hl : (Node.branch cs bv).inv := hinv _ (List.mem_cons_self _ _)
    have hrest : ∀ n ∈ s1, n.inv := fun n hn => hinv n (List.mem_cons_of_mem _ hn)
    split at h
    · have hres := upsertPersist_inv E _ k _ _ u h (by
        intro n hn
        simp only [List.mem_cons] at hn
        rcases hn with hn | hn | hn
        · subst hn
          exact ⟨by simp, by simpa using hv⟩
        · subst hn
          exact hl
        · exact hrest n hn)
      refine ⟨hres.1, ?_⟩
      intro n hn hext
      rw [hres.2] at hn
      simp only [Option.some.injEq] at hn
      subst hn
      simp [Node.isExt] at hext
    · have hres := upsertPersist_inv E _ k _ _ u h (by
        intro n hn
        simp only [List.mem_cons] at hn
        rcases hn with hn | hn
        · subst hn
          exact ⟨Or.inr (by simp), by simpa using hv⟩
        · exact hrest n hn)
      refine ⟨hres.1, ?_⟩
      intro n hn hext
      rw [hres.2] at hn
      simp only [Option.some.injEq] at hn
      subst hn
      simp [Node.isExt] at hext
  · next path child s1 =>
    have hl : (Node.ext path child).inv := hinv _ (List.mem_cons_self _ _)
    have hrest : ∀ n ∈ s1, n.inv := fun n hn => hinv n (List.mem_cons_of_mem _ hn)
    exact upsertSplit_inv E hhash mt pos k v _ s1 u h herr hv hl rfl hrest

theorem quietEnv_nodeHash_ne_nil (n : Node) : quietEnv.nodeHash n ≠ [] := by
  simp [quietEnv]

theorem upsert_preserves_invariants_witness :
    (([3] : Bytes) ≠ [] ∧
      ∀ n ∈ [Node.ext ['1', '2'] (some (.branch (.cons '0' (.leaf ['0'] (some [1])) .nil) none))],
        n.inv) ∧
    ∃ u, upsert quietEnv emptyTree 2 ['1', '3', '0', '0'] [3]
        [Node.ext ['1', '2'] (some (.branch (.cons '0' (.leaf ['0'] (some [1])) .nil) none))]
        = .done u ∧ u.err = none ∧ (∀ n ∈ u.stack, n.inv) ∧
      (∀ n, u.lastNode = some n → n.isExt = true → n.getPath ≠ []) :=
  ⟨⟨by decide, by decide⟩, ⟨_, rfl, rfl,
    upsert_preserves_invariants quietEnv quietEnv_nodeHash_ne_nil emptyTree 2
      ['1', '3', '0', '0'] [3]
      [Node.ext ['1', '2'] (some (.branch (.cons '0' (.leaf ['0'] (some [1])) .nil) none))]
      _ rfl rfl (by decide) (by decide)⟩⟩

/-! ## Traversal and write-path defects, evaluated -/

/-- C15 (leaf matching), evaluated on the code: a leaf with path `10` answers
the longer key path `1020`: `findValue` compares the leaf's path with the
equally long slice of the key and not with the whole remaining suffix, so
`Get(0x1020)` on the trie holding only key `0x10` returns that key's value. -/
theorem leaf_matches_on_proper_prefix :
    (match findValue quietEnv (some (.leaf ['1', '0'] (some [1]))) ['1', '0', '2', '0'] 0 [] with
      | .done r => some (r.value, r.err)
      | .panic => none) = some (some [1], none) ∧
    (putAll quietEnv emptyTree [([16], [1])]).map (fun mt => getResult quietEnv mt [16, 32])
      = some (.done (some [1], none)) := by
  decide

/-- C16 (matched-position counter), evaluated on the code: on the trie built by
`Put(0x1000,[1])`, `Put(0x1001,[2])` (root extension with path `100`), the
traversal for key `0x20` matches no nibble, yet `getPathLength` of its stack is
3, more than the 2 nibbles of the key, and `Put(0x20,[3])` panics on the slice
`k[pos:]`. -/
theorem getPathLength_counts_unmatched_extension :
    (putAll quietEnv emptyTree [([16, 0], [1]), ([16, 1], [2])]).map
      (fun mt => match Get quietEnv mt [32] with
        | .done g => some (g.value, g.stack.length, getPathLength g.stack,
            (hexEncode [32]).length)
        | .panic => none) = some (some (none, 1, 3, 2)) ∧
    (putAll quietEnv emptyTree [([16, 0], [1]), ([16, 1], [2])]).map
      (fun mt => putOutcome quietEnv mt [32] [3]) = some .panic := by
  decide

/-- C17 (insert below a branch), evaluated on the code: on the trie with root
branch holding keys `0x10` and `0x20`, `Put(0x30,[3])` stops at the root with
no nibble matched above it (`m = 0`); the new leaf goes to slot `0`, the
nibble `k[1]`, with the empty path `k[2:]`, instead of slot `3` with path `0`,
and `Get(0x30)` returns absent. -/
theorem put_below_branch_uses_next_nibble :
    (putAll quietEnv emptyTree [([16], [1]), ([32], [2])]).map (fun mt => mt.root)
      = some (some (.branch
          (.cons '1' (.leaf ['0'] (some [1])) (.cons '2' (.leaf ['0'] (some [2])) .nil)) none)) ∧
    (putAll quietEnv emptyTree [([16], [1]), ([32], [2]), ([48], [3])]).map
      (fun mt => (mt.root, getResult quietEnv mt [48]))
      = some (some (.branch
          (.cons '1' (.leaf ['0'] (some [1])) (.cons '2' (.leaf ['0'] (some [2]))
            (.cons '0' (.leaf [] (some [3])) .nil))) none),
        .done (none, none)) := by
  decide

/-- C18 (upsert records the value), evaluated on the code: `upsert` on the
stack holding the leaf with path `10` and value `[1]`, for the key path `10`
and the value `[2]`, returns `nil` with the stack of a branch with value `[1]`
under an extension `10`: no node of the stack holds `[2]`. -/
theorem upsert_drops_value_on_full_match :
    (match upsert quietEnv emptyTree 0 ['1', '0'] [2] [.leaf ['1', '0'] (some [1])] with
      | .done u => some (u.err, u.stack)
      | .panic => none)
      = some (none, [.branch .nil (some [1]),
          .ext ['1', '0'] (some (.branch .nil (some [1])))]) := by
  decide

/-- C19 (traversal stays inside the key), evaluated on the code: the trie left
by `Put(0x10,[1])`, `Put(0x10,[2])` is an extension `10` over a branch, and
`findValue` for the key path `10` reaches that branch with `pos = 2 = len(k)`,
where `k[pos]` is out of range. -/
theorem findValue_indexes_past_key :
    (putAll quietEnv emptyTree [([16], [1]), ([16], [2])]).map (fun mt => mt.root)
      = some (some (.ext ['1', '0'] (some (.branch .nil (some [1]))))) ∧
    (match findValue quietEnv (some (.ext ['1', '0'] (some (.branch .nil (some [1])))))
        ['1', '0'] 0 [] with
      | .done _ => false
      | .panic => true) = true := by
  decide

/-- C20 (other keys untouched), evaluated on the code: on the trie holding
`0x1000` and `0x1100` (extension `1` over a branch), `Get(0x1000)` returns
`[1]`; after the successful `Put(0x2000,[3])`, which splits at that extension,
whose rest after the diverging nibble is empty, `Get(0x1000)` returns absent:
the old subtree is reduced to a hash in the new branch's value. -/
theorem put_loses_other_key :
    (putAll quietEnv emptyTree [([16, 0], [1]), ([17, 0], [2])]).map
      (fun mt => getResult quietEnv mt [16, 0]) = some (.done (some [1], none)) ∧
    (putAll quietEnv emptyTree [([16, 0], [1]), ([17, 0], [2]), ([32, 0], [3])]).map
      (fun mt => getResult quietEnv mt [16, 0]) = some (.done (none, none)) ∧
    (putAll quietEnv emptyTree [([16, 0], [1]), ([17, 0], [2]), ([32, 0], [3])]).map
      (fun mt => mt.root)
      = some (some (.branch (.cons '0' (.leaf ['0', '0'] (some [3])) .nil)
          (some (List.replicate 32 0)))) := by
  decide

/-! ## `persistNodes` on the stacks of `Put` -/

theorem consumedBy_eq_getPathLength (s : Stack) (h : ∀ n ∈ s, n.isLeaf = false) :
    consumedBy s = getPathLength s := by
  induction s with
  | nil => rfl
  | cons n rest ih =>
    have hn := h n (List.mem_cons_self _ _)
    have hrest := ih (fun m hm => h m (List.mem_cons_of_mem _ hm))
    cases n with
    | branch cs v => simp [consumedBy, getPathLength, Node.consumed, Node.isBranch, hrest]
    | ext p c =>
      simp [consumedBy, getPathLength, Node.consumed, Node.isBranch, Node.isExt,
        Node.getPath, hrest]
    | leaf p v => simp [Node.isLeaf] at hn

theorem persistNodesLoop_no_error (E : Env) (k : List Char) :
    ∀ (items : List Node) (lr : Node) (pos : Int) (mt : MerkleTree) (r : Persisted),
      persistNodesLoop E k items (some lr) pos mt = .done r →
      (consumedBy items : Int) - 1 ≤ pos → pos < k.length → r.err = none := by
  intro items
  induction items with
  | nil =>
    intro lr pos mt r h _ _
    simp only [persistNodesLoop, Run.done.injEq] at h
    subst h
    rfl
  | cons n items ih =>
    intro lr pos mt r h hw hlt
    cases n with
    | branch cs v =>
      simp only [consumedBy, Node.consumed] at hw
      have hnot : ¬ (pos < 0 ∨ pos = (k.length : Int)) := by omega
      simp only [persistNodesLoop, if_neg hnot] at h
      split at h
      · cases h
      · split at h
        · cases h
        · next r1 h1 =>
          simp only [Run.done.injEq] at h
          subst h
          exact ih _ _ _ r1 h1 (by omega) (by omega)
    | ext path child =>
      simp only [consumedBy, Node.consumed] at hw
      simp only [persistNodesLoop] at h
      split at h
      · cases h
      · next r1 h1 =>
        simp only [Run.done.injEq] at h
        subst h
        exact ih _ _ _ r1 h1 (by omega) (by omega)
    | leaf path v =>
      simp only [consumedBy, Node.consumed] at hw
      simp only [persistNodesLoop] at h
      split at h
      · cases h
      · next r1 h1 =>
        simp only [Run.done.injEq] at h
        subst h
        exact ih _ _ _ r1 h1 (by omega) (by omega)

/-- Positions stepped back over the first node of the slice: a branch handled
first has no node before it and steps back over nothing. -/
theorem persistNodes_no_error (E : Env) (mt : MerkleTree) (k : List Char) (n0 : Node)
    (rest : List Node) (r : Persisted)
    (h : persistNodes E mt k (n0 :: rest) = .done r)
    (hw : (if n0.isBranch then 0 else n0.consumed) + consumedBy rest ≤ k.length) :
    r.err = none := by
  simp only [persistNodes, List.length_cons] at h
  rw [if_neg (by omega)] at h
  cases n0 with
  | branch cs v =>
    simp only [Node.isBranch, if_true] at hw
    simp only [persistNodesLoop] at h
    split at h
    · cases h
    · next r1 h1 =>
      simp only [Run.done.injEq] at h
      subst h
      exact persistNodesLoop_no_error E k _ _ _ _ r1 h1 (by omega) (by omega)
  | ext path child =>
    simp only [Node.isBranch, Node.consumed, Bool.false_eq_true, if_false] at hw
    simp only [persistNodesLoop] at h
    split at h
    · cases h
    · next r1 h1 =>
      simp only [Run.done.injEq] at h
      subst h
      exact persistNodesLoop_no_error E k _ _ _ _ r1 h1 (by omega) (by omega)
  | leaf path v =>
    simp only [Node.isBranch, Node.consumed, Bool.false_eq_true, if_false] at hw
    simp only [persistNodesLoop] at h
    split at h
    · cases h
    · next r1 h1 =>
      simp only [Run.done.injEq] at h
      subst h
      exact persistNodesLoop_no_error E k _ _ _ _ r1 h1 (by omega) (by omega)

theorem upsertPersist_dropped (E : Env) (mt : MerkleTree) (k : List Char) (n0 : Node)
    (rest : List Node) (ln : Option Node) (u : Upserted)
    (h : upsertPersist E mt k (n0 :: rest) ln = .done u)
    (hw : (if n0.isBranch then 0 else n0.consumed) + consumedBy rest ≤ k.length) :
    u.dropped = none := by
  unfold upsertPersist at h
  split at h
  · cases h
  · next r hr =>
    simp only [Run.done.injEq] at h
    subst h
    exact persistNodes_no_error E mt k n0 rest r hr hw

theorem commonPrefix_length_le (p l : List Char) :
    (commonPrefix p l).length ≤ p.length ∧ (commonPrefix p l).length ≤ l.length := by
  induction p generalizing l with
  | nil => simp [commonPrefix]
  | cons x p ih =>
    cases l with
    | nil => simp [commonPrefix]
    | cons y l =>
      simp only [commonPrefix]
      split
      · have := ih l
        simp only [List.length_cons]
        omega
      · simp

theorem upsertPersist_split_dropped (E : Env) (mt : MerkleTree) (k : List Char) (pos q : Nat)
    (v : Bytes) (cs : Children) (bv : Option Bytes) (cpl : Nat) (px : List Char) (s : Stack)
    (ln : Option Node) (u : Upserted)
    (h : upsertPersist E mt k
      ((if q < k.length then [Node.leaf (k.drop (q + 1)) (some v)] else []) ++
        Node.branch cs bv :: (if cpl > 0 then Node.ext px none :: s else s)) ln = .done u)
    (hq : q = pos + cpl) (hpx : px.length = cpl) (hs : consumedBy s ≤ pos)
    (hle : pos + cpl ≤ k.length) : u.dropped = none := by
  have hcons : consumedBy (if cpl > 0 then Node.ext px none :: s else s)
      = cpl + consumedBy s := by
    split
    · simp [consumedBy, Node.consumed, hpx]
    · have : cpl = 0 := by omega
      simp [this]
  by_cases hlt : q < k.length
  · simp only [if_pos hlt, List.cons_append, List.nil_append] at h
    refine upsertPersist_dropped E mt k _ _ ln u h ?_
    simp only [Node.isBranch, Bool.false_eq_true, if_false, Node.consumed, consumedBy, hcons,
      List.length_drop]
    omega
  · simp only [if_neg hlt, List.nil_append] at h
    refine upsertPersist_dropped E mt k _ _ ln u h ?_
    simp only [Node.isBranch, if_true, hcons]
    omega

theorem upsertSplit_dropped (E : Env) (mt : MerkleTree) (pos : Nat) (k : List Char) (v : Bytes)
    (lastNode : Node) (s : Stack) (u : Upserted)
    (h : upsertSplit E mt pos k v lastNode s = .done u) (hs : consumedBy s ≤ pos) :
    u.dropped = none := by
  have hcp := commonPrefix_length_le lastNode.getPath (k.drop pos)
  unfold upsertSplit at h
  split at h
  · cases h
  · next hpos =>
    have hle : pos + (commonPrefix lastNode.getPath (k.drop pos)).length ≤ k.length := by
      have := hcp.2
      rw [List.length_drop] at this
      omega
    have hpx : (lastNode.getPath.take (commonPrefix lastNode.getPath (k.drop pos)).length).length
        = (commonPrefix lastNode.getPath (k.drop pos)).length := by
      rw [List.length_take]
      omega
    have hq : (if (commonPrefix lastNode.getPath (k.drop pos)).length > 0
        then pos + (commonPrefix lastNode.getPath (k.drop pos)).length else pos)
        = pos + (commonPrefix lastNode.getPath (k.drop pos)).length := by
      split
      · rfl
      · omega
    simp only at h
    split at h
    · split at h
      · split at h
        · simp only [Run.done.injEq] at h
          subst h
          rfl
        · exact upsertPersist_split_dropped E _ k pos _ v _ _ _ _ s _ u h hq hpx hs hle
      · exact upsertPersist_split_dropped E _ k pos _ v _ _ _ _ s _ u h hq hpx hs hle
    · exact upsertPersist_split_dropped E _ k pos _ v _ _ _ _ s _ u h hq hpx hs hle

theorem upsert_dropped (E : Env) (mt : MerkleTree) (pos : Nat) (k : List Char) (v : Bytes)
    (s : Stack) (u : Upserted) (h : upsert E mt pos k v s = .done u)
    (hpos : pos = getPathLength s) (hok : StackOk k s) : u.dropped = none := by
  unfold upsert at h
  split at h
  · simp only [Run.done.injEq] at h
    subst h
    rfl
  · next leafPath lv s1 =>
    have hc := consumedBy_eq_getPathLength s1 hok.1
    have hp : pos = getPathLength s1 := by
      rw [hpos]
      simp [getPathLength, Node.isBranch, Node.isExt]
    simp only at h
    split at h
    · cases h
    · next hl =>
      split at h
      · next hcond =>
        refine upsertPersist_dropped E _ k _ _ _ u h ?_
        have hcp := (commonPrefix_length_le leafPath (k.drop (getPathLength s1))).2
        rw [List.length_drop] at hcp
        simp only [Node.isBranch, Bool.false_eq_true, if_false, Node.consumed, hc]
        omega
      · exact upsertSplit_dropped E mt pos k v _ s1 u h (by omega)
  · next cs bv s1 =>
    have hc := consumedBy_eq_getPathLength s1 hok.1
    have hp : pos = 1 + getPathLength s1 := by
      rw [hpos]
      simp [getPathLength, Node.isBranch]
    have hm := hok.2
    split at h
    · refine upsertPersist_dropped E _ k _ _ _ u h ?_
      simp only [Node.isBranch, Bool.false_eq_true, if_false, Node.consumed, consumedBy, hc,
        List.length_drop]
      omega
    · refine upsertPersist_dropped E _ k _ _ _ u h ?_
      simp only [Node.isBranch, if_true, hc]
      omega
  · next path child s1 =>
    have hc := consumedBy_eq_getPathLength s1 hok.1
    have hp : pos = path.length + getPathLength s1 := by
      rw [hpos]
      simp [getPathLength, Node.isBranch, Node.isExt, Node.getPath]
    exact upsertSplit_dropped E mt pos k v _ s1 u h (by omega)

theorem stackOk_of_matched (k : List Char) (s0 : Stack) (pos : Nat)
    (hl : ∀ n ∈ s0, n.isLeaf = false) (hg : getPathLength s0 = pos) (hp : pos ≤ k.length) :
    StackOk k s0 ∧ ∀ n, StackOk k (n :: s0) := by
  refine ⟨?_, fun n => ⟨hl, by omega⟩⟩
  cases s0 with
  | nil => trivial
  | cons top parents =>
    refine ⟨fun n hn => hl n (List.mem_cons_of_mem _ hn), ?_⟩
    simp only [getPathLength] at hg
    omega

theorem findValueNode_stackOk (E : Env) (k : List Char) (n : Node) :
    ∀ (pos : Nat) (s0 : Stack) (r : Found), findValueNode E n k pos s0 = .done r →
      (∀ m ∈ s0, m.isLeaf = false) → getPathLength s0 = pos → pos ≤ k.length →
      StackOk k r.stack := by
  refine Node.rec
    (motive_1 := fun n => ∀ (pos : Nat) (s0 : Stack) (r : Found),
      findValueNode E n k pos s0 = .done r →
      (∀ m ∈ s0, m.isLeaf = false) → getPathLength s0 = pos → pos ≤ k.length →
      StackOk k r.stack)
    (motive_2 := fun cs => ∀ (c : Char) (pos : Nat) (s : Stack) (r : Found),
      findValueChild E cs c k pos s = .done r →
      (∀ m ∈ s, m.isLeaf = false) → getPathLength s = pos + 1 → pos + 1 ≤ k.length →
      StackOk k r.stack)
    (motive_3 := fun o => ∀ c, o = some c → ∀ (pos : Nat) (s0 : Stack) (r : Found),
      findValueNode E c k pos s0 = .done r →
      (∀ m ∈ s0, m.isLeaf = false) → getPathLength s0 = pos → pos ≤ k.length →
      StackOk k r.stack)
    ?_ ?_ ?_ ?_ ?_ ?_ ?_ n
  · intro cs v ih pos s0 r h hl hg hp
    have hok := stackOk_of_matched k s0 pos hl hg hp
    simp only [findValueNode] at h
    split at h
    · simp only [Run.done.injEq] at h
      subst h
      exact hok.1
    · split at h
      · simp only [Run.done.injEq] at h
        subst h
        exact hok.2 _
      · split at h
        · cases h
        · next c hc =>
          have hlt : pos < k.length := by
            rcases Nat.lt_or_ge pos k.length with hlt | hge
            · exact hlt
            · rw [List.get?_eq_none.mpr hge] at hc
              cases hc
          refine ih c pos _ r h ?_ ?_ (by omega)
          · intro m hm
            simp only [List.mem_cons] at hm
            rcases hm with hm | hm
            · subst hm
              rfl
            · exact hl m hm
          · simp only [getPathLength, Node.isBranch, if_true]
            omega
  · intro path child ih pos s0 r h hl hg hp
    have hok := stackOk_of_matched k s0 pos hl hg hp
    cases child with
    | none =>
      simp only [findValueNode] at h
      split at h
      · simp only [Run.done.injEq] at h
        subst h
        exact hok.1
      · split at h <;>
        · simp only [Run.done.injEq] at h
          subst h
          exact hok.2 _
    | some c =>
      simp only [findValueNode] at h
      split at h
      · simp only [Run.done.injEq] at h
        subst h
        exact hok.1
      · split at h
        · simp only [Run.done.injEq] at h
          subst h
          exact hok.2 _
        · next hmatch =>
          refine ih c rfl (pos + path.length) _ r h ?_ ?_ ?_
          · intro m hm
            simp only [List.mem_cons] at hm
            rcases hm with hm | hm
            · subst hm
              rfl
            · exact hl m hm
          · simp only [getPathLength, Node.isBranch, Node.isExt, Node.getPath,
              Bool.false_eq_true, if_false, if_true]
            omega
          · have h1 : ¬ ((k.length : Int) - (pos : Int) < (path.length : Int)) :=
              fun hx => hmatch (Or.inl hx)
            omega
  · intro path v pos s0 r h hl hg hp
    have hok := stackOk_of_matched k s0 pos hl hg hp
    simp only [findValueNode] at h
    split at h
    · simp only [Run.done.injEq] at h
      subst h
      exact hok.1
    · split at h
      · simp only [Run.done.injEq] at h
        subst h
        exact hok.2 _
      · simp only [Run.done.injEq] at h
        subst h
        exact hok.2 _
  · intro c pos s r h hl hg hp
    simp only [findValueChild, Run.done.injEq] at h
    subst h
    exact (stackOk_of_matched k s (pos + 1) hl hg hp).1
  · intro i m rest ihn ihr c pos s r h hl hg hp
    simp only [findValueChild] at h
    split at h
    · exact ihn (pos + 1) s r h hl hg hp
    · exact ihr c pos s r h hl hg hp
  · intro c hc
    cases hc
  · intro val ih c hc
    cases hc
    exact ih

theorem Get_stackOk (E : Env) (mt : MerkleTree) (k : Bytes) (g : Found)
    (h : Get E mt k = .done g) : StackOk (hexEncode k) g.stack := by
  have hf : ∀ r, findValue E mt.root (hexEncode k) 0 [] = .done r →
      StackOk (hexEncode k) r.stack := by
    intro r hr
    unfold findValue at hr
    split at hr
    · simp only [Run.done.injEq] at hr
      subst hr
      trivial
    · exact findValueNode_stackOk E (hexEncode k) _ 0 [] r hr (by simp) rfl (by omega)
  unfold Get at h
  split at h
  · cases h
  · next r hr =>
    have hs := hf r hr
    split at h
    · simp only [Run.done.injEq] at h
      subst h
      exact hs
    · split at h
      · simp only [Run.done.injEq] at h
        subst h
        exact hs
      · split at h <;>
        · simp only [Run.done.injEq] at h
          subst h
          exact hs

/-- C10 (structural-error abort): in the `upsert` call that `Put` makes, on the
stack `Get` returned for the key and at the position `getPathLength` gives for
that stack, the `persistNodes` run reports no error, neither `invalid pos
value` nor `unexpected node type` (the node type has three variants). So
whenever `persistNodes` reports an inconsistency `Put` returns an error and
keeps the root reference, the condition never being met. -/
theorem put_persistNodes_reports_no_error (E : Env) (mt : MerkleTree) (k userValue : Bytes)
    (g : Found) (u : Upserted) (hg : Get E mt k = .done g)
    (hu : upsert E mt (getPathLength g.stack) (hexEncode k) userValue g.stack = .done u) :
    u.dropped = none ∧
    ∀ e mt1, putFinish mt g (.done u) = .done (e, mt1) → u.dropped ≠ none →
      e ≠ none ∧ mt1.root = mt.root := by
  have h := upsert_dropped E mt _ (hexEncode k) userValue g.stack u hu rfl
    (Get_stackOk E mt k g hg)
  exact ⟨h, fun _ _ _ hne => absurd h hne⟩

theorem put_persistNodes_reports_no_error_witness :
    ∃ g u,
      Get quietEnv ⟨some (.branch (.cons '1' (.leaf ['0'] (some [1]))
          (.cons '2' (.leaf ['0'] (some [2])) .nil)) none), [], []⟩ [33] = .done g ∧
      upsert quietEnv ⟨some (.branch (.cons '1' (.leaf ['0'] (some [1]))
          (.cons '2' (.leaf ['0'] (some [2])) .nil)) none), [], []⟩
        (getPathLength g.stack) (hexEncode [33]) [3] g.stack = .done u ∧
      g.stack.length = 2 ∧ u.stack.length = 3 ∧ u.dropped = none := by
  refine ⟨_, _, rfl, rfl, rfl, rfl, ?_⟩
  exact (put_persistNodes_reports_no_error quietEnv
    ⟨some (.branch (.cons '1' (.leaf ['0'] (some [1]))
      (.cons '2' (.leaf ['0'] (some [2])) .nil)) none), [], []⟩ [33] [3] _ _ rfl rfl).1

end Merkle
